import Mathlib

/-!
# Verification of the approximate-query-engine core

Shallow embedding of the AQE core (sketches, sampler, planner, ML
optimizer, executor/scaler) and proofs of the spec's claims about it.

Modelling conventions:
* Python byte strings are `List Nat` with every entry below 256.
* Python unbounded `int` is `Int` (or `Nat` where the source value is
  manifestly non-negative).
* Python `float` arithmetic is modelled over `ℚ`; the two IEEE-754
  floats stored inside a Count-Min sketch are carried as their 64-bit
  bit patterns, which is what the byte-level wire format serializes.
* External effects (SQLite queries, SHA-256 hashing, `math.sqrt`) are
  modelled as explicit oracle parameters; a raised Python exception is
  an `Option`/`Except` failure.
-/

namespace AQE

/-! ## Little-endian byte encodings (`struct.pack` / `struct.unpack`) -/

/-- Little-endian encoding of `n` into `k` bytes, as produced by
`struct.pack` (`<I` for `k = 4`, `<Q` for `k = 8`). -/
def leEnc : Nat → Nat → List Nat
  | 0, _ => []
  | k + 1, n => n % 256 :: leEnc k (n / 256)

/-- Little-endian decoding of a byte list, as in `struct.unpack`. -/
def leDec : List Nat → Nat
  | [] => 0
  | b :: bs => b + 256 * leDec bs

/-! ## HyperLogLog (`src/sketches.py`)

A `HyperLogLog` value carries the three mutable fields of the Python
class; `alpha` is a pure function of `m` and is not needed by any
claim, so it is not stored. -/

structure HyperLogLog where
  b : Nat
  m : Nat
  registers : List Nat
deriving DecidableEq, Repr

/-- `HyperLogLog.__init__`: an out-of-range `b` (outside `[4,16]`) is
silently replaced by 10; `m = 2^b` registers, all zero.  Python's `b`
is a possibly negative `int`. -/
def HyperLogLog.init (b : Int) : HyperLogLog :=
  let bv : Nat := if b < 4 ∨ b > 16 then 10 else b.toNat
  { b := bv, m := 2 ^ bv, registers := List.replicate (2 ^ bv) 0 }

/-- The leading-zero loop of `HyperLogLog.add`, with an explicit fuel
that strictly dominates the number of iterations (each iteration
increments `lz`, and the loop only continues while `lz ≤ 64 - b`, so
`64 - b + 2 - lz` units of fuel can never run out). -/
def rhoAux (b : Nat) : Nat → Nat → Nat → Nat
  | 0, _, lz => lz
  | fuel + 1, w, lz =>
    if 0 < w ∧ lz ≤ 64 - b then
      if w % 2 = 1 then lz else rhoAux b fuel (w / 2) (lz + 1)
    else lz

/-- `leading_zeros` computation of `HyperLogLog.add`: starting from 1,
shift `w` right while its low bit is 0, stopping when `w = 0` or the
counter exceeds `64 - b`. -/
def rhoLoop (b w lz : Nat) : Nat := rhoAux b (64 - b + 2 - lz) w lz

/-- `HyperLogLog.add` applied to an already-hashed 64-bit value `hv`:
`j = hv & (2^b - 1)`, `w = hv >> b`, and register `j` is raised to the
leading-zero count when that is larger.  (Python would raise an
`IndexError` for `j` out of range, which cannot happen on a well-formed
instance; the model's `getD`/`set` are no-ops there.) -/
def HyperLogLog.addHash (h : HyperLogLog) (hv : Nat) : HyperLogLog :=
  let j := hv % 2 ^ h.b
  let w := hv / 2 ^ h.b
  let lz := rhoLoop h.b w 1
  if h.registers.getD j 0 < lz then
    { h with registers := h.registers.set j lz }
  else h

/-- `HyperLogLog.add`: the SHA-256 based `_hash64` is an external
function; it is modelled as an arbitrary hash parameter reduced to 64
bits. -/
def HyperLogLog.add (hash : List Nat → Nat) (h : HyperLogLog) (v : List Nat) : HyperLogLog :=
  h.addHash (hash v % 2 ^ 64)

/-- `HyperLogLog.merge`: raises (`none`) on mismatched parameters,
otherwise takes the register-wise maximum. -/
def HyperLogLog.merge (h other : HyperLogLog) : Option HyperLogLog :=
  if h.m ≠ other.m ∨ h.b ≠ other.b then none
  else some { h with registers := List.zipWith max h.registers other.registers }

/-- `HyperLogLog.serialize`: `b` (1 byte), `m` (4 bytes LE), then the
`m` register bytes. -/
def HyperLogLog.serialize (h : HyperLogLog) : List Nat :=
  h.b :: (leEnc 4 h.m ++ h.registers)

/-- `HyperLogLog.deserialize`: rejects data shorter than 5 bytes or
whose length differs from `5 + m`; reconstructs through the constructor
(so an out-of-range `b` byte would be clamped) and overwrites the
registers. -/
def HyperLogLog.deserialize (data : List Nat) : Option HyperLogLog :=
  if data.length < 5 then none
  else
    let b := data.getD 0 0
    let m := leDec ((data.drop 1).take 4)
    if data.length ≠ 5 + m then none
    else some { HyperLogLog.init (b : Int) with registers := data.drop 5 }

/-- Class invariant of every reachable `HyperLogLog` instance. -/
def HyperLogLog.WF (h : HyperLogLog) : Prop :=
  4 ≤ h.b ∧ h.b ≤ 16 ∧ h.m = 2 ^ h.b ∧ h.registers.length = h.m ∧
    ∀ r ∈ h.registers, r < 256

instance (h : HyperLogLog) : Decidable h.WF := by
  unfold HyperLogLog.WF; infer_instance

/-- Register invariant used while tracking `add`/`merge` sequences:
the register list has length `m` and every register is at most
`64 - b + 1` (the maximal value the leading-zero loop can produce). -/
def HyperLogLog.RegInv (h : HyperLogLog) : Prop :=
  h.registers.length = h.m ∧ ∀ r ∈ h.registers, r ≤ 64 - h.b + 1

instance (h : HyperLogLog) : Decidable h.RegInv := by
  unfold HyperLogLog.RegInv; infer_instance

/-- One mutating operation on a HyperLogLog: `add` of a hashed value,
or `merge` with another instance. -/
inductive HllOp where
  | addOp (hv : Nat)
  | mergeOp (other : HyperLogLog)
deriving Repr

/-- Apply one operation; `merge` can raise, hence `Option`. -/
def HyperLogLog.applyOp (h : HyperLogLog) : HllOp → Option HyperLogLog
  | .addOp hv => some (h.addHash hv)
  | .mergeOp o => h.merge o

/-- Apply a sequence of operations left to right, aborting on the
first raised exception. -/
def HyperLogLog.applyOps (h : HyperLogLog) (ops : List HllOp) : Option HyperLogLog :=
  ops.foldlM HyperLogLog.applyOp h

/-! ## Count-Min sketch (`src/sketches.py`)

The two `float` parameters are carried as their IEEE-754 bit patterns
(`epsilonBits`, `deltaBits`): the byte-level wire format stores exactly
those 8-byte patterns, and the claims never compute with the floats
themselves (the constructor's transient `w`,`d` recomputation inside
`deserialize` is immediately overwritten from the data). -/

structure CountMinSketch where
  w : Nat
  d : Nat
  epsilonBits : Nat
  deltaBits : Nat
  table : List (List Int)
deriving DecidableEq, Repr

/-- A freshly constructed sketch: `CountMinSketch.__init__` computes
`w = ⌈e/ε⌉` and `d = ⌈ln(1/δ)⌉` with external float math; the model
takes the resulting dimensions as parameters and keeps the all-zero
`d × w` table the constructor builds. -/
def CountMinSketch.mk0 (w d epsilonBits deltaBits : Nat) : CountMinSketch :=
  { w := w, d := d, epsilonBits := epsilonBits, deltaBits := deltaBits,
    table := List.replicate d (List.replicate w 0) }

/-- In-place update of one list position (`l[n] = f l[n]`); a no-op
out of range (reachable code never goes out of range). -/
def listModify {α : Type} (l : List α) (n : Nat) (f : α → α) : List α :=
  match l, n with
  | [], _ => []
  | a :: t, 0 => f a :: t
  | a :: t, n + 1 => a :: listModify t n f

/-- `CountMinSketch.add`: for every row `i`, increment column
`hash(key, i) % w` by `count`.  The SHA-256 based `_hash` is external
and is modelled as an arbitrary hash parameter. -/
def CountMinSketch.add (hash : List Nat → Nat → Nat) (c : CountMinSketch)
    (key : List Nat) (cnt : Int) : CountMinSketch :=
  let t := (List.range c.d).foldl
    (fun t i => listModify t i (fun row => listModify row (hash key i % c.w) (· + cnt))) c.table
  { c with table := t }

/-- A finite sequence of `add(key, count)` calls. -/
def CountMinSketch.addAll (hash : List Nat → Nat → Nat) (c : CountMinSketch)
    (ops : List (List Nat × Int)) : CountMinSketch :=
  ops.foldl (fun acc p => acc.add hash p.1 p.2) c

/-- `CountMinSketch.estimate`: minimum over the `d` counters for the
key.  An empty row range leaves `min_count = inf`, and Python's final
`int(inf)` raises, hence `none`. -/
def CountMinSketch.estimate (hash : List Nat → Nat → Nat) (c : CountMinSketch)
    (key : List Nat) : Option Int :=
  match (List.range c.d).map (fun i => (c.table.getD i []).getD (hash key i % c.w) 0) with
  | [] => none
  | x :: xs => some (xs.foldl min x)

/-- The total count added for `key` by a sequence of `add` calls. -/
def trueCount (key : List Nat) (ops : List (List Nat × Int)) : Int :=
  ((ops.filter (fun p => p.1 = key)).map (fun p => p.2)).sum

/-- `CountMinSketch.serialize`: `w` (4 LE), `d` (4 LE), the two float
bit patterns (8 LE each), then the row-major `d·w` unsigned 64-bit
counters. -/
def CountMinSketch.serialize (c : CountMinSketch) : List Nat :=
  leEnc 4 c.w ++ leEnc 4 c.d ++ leEnc 8 c.epsilonBits ++ leEnc 8 c.deltaBits ++
    (c.table.map (fun row => (row.map (fun v => leEnc 8 v.toNat)).flatten)).flatten

/-- Read `k` bytes as one little-endian number; `struct.unpack` raises
on a short slice, hence `none`. -/
def readLe (k : Nat) (data : List Nat) : Option (Nat × List Nat) :=
  if data.length < k then none else some (leDec (data.take k), data.drop k)

/-- Read one row of `w` unsigned 64-bit counters. -/
def readRow : Nat → List Nat → Option (List Int × List Nat)
  | 0, data => some ([], data)
  | w + 1, data => do
    let (v, rest) ← readLe 8 data
    let (vs, rest') ← readRow w rest
    pure ((v : Int) :: vs, rest')

/-- Read `d` rows of `w` counters each. -/
def readRows : Nat → Nat → List Nat → Option (List (List Int) × List Nat)
  | 0, _, data => some ([], data)
  | d + 1, w, data => do
    let (row, rest) ← readRow w data
    let (rows, rest') ← readRows d w rest
    pure (row :: rows, rest')

/-- `CountMinSketch.deserialize`: reads `w`, `d`, the float bit
patterns and then `d·w` counters at fixed offsets; trailing bytes are
ignored, a short buffer raises. -/
def CountMinSketch.deserialize (data : List Nat) : Option CountMinSketch := do
  let (w, r1) ← readLe 4 data
  let (d, r2) ← readLe 4 r1
  let (eb, r3) ← readLe 8 r2
  let (db, r4) ← readLe 8 r3
  let (t, _) ← readRows d w r4
  pure { w := w, d := d, epsilonBits := eb, deltaBits := db, table := t }

/-- Well-formedness of a reachable Count-Min sketch whose counters all
fit the `<Q` (unsigned 64-bit) wire format. -/
def CountMinSketch.WF (c : CountMinSketch) : Prop :=
  c.w < 2 ^ 32 ∧ c.d < 2 ^ 32 ∧ c.epsilonBits < 2 ^ 64 ∧ c.deltaBits < 2 ^ 64 ∧
    c.table.length = c.d ∧
    ∀ row ∈ c.table, row.length = c.w ∧ ∀ v ∈ row, 0 ≤ v ∧ v < 2 ^ 64

instance (c : CountMinSketch) : Decidable c.WF := by
  unfold CountMinSketch.WF; infer_instance

/-- The counter a given key hashes to in row `i` (`table[i][hash(key,i) % w]`). -/
def CountMinSketch.cell (hash : List Nat → Nat → Nat) (c : CountMinSketch)
    (key : List Nat) (i : Nat) : Int :=
  (c.table.getD i []).getD (hash key i % c.w) 0

/-- Dimension invariant of the count table: `d` rows of `w` counters. -/
def CountMinSketch.Dims (c : CountMinSketch) : Prop :=
  c.table.length = c.d ∧ ∀ i, i < c.d → (c.table.getD i []).length = c.w

/-! ## Python string primitives shared by planner, sampler and executor -/

/-- Position of the first occurrence of `pat` (Python's `in` /
`str.index`): scan left to right, report the first position where
`pat` is a prefix of the remaining suffix. -/
def pyIndex (pat : List Char) : List Char → Option Nat
  | [] => if pat.isEmpty then some 0 else none
  | c :: rest =>
    if pat.isPrefixOf (c :: rest) then some 0
    else (pyIndex pat rest).map (· + 1)

/-- Python's `pat in s` substring test. -/
def pyContains (hay pat : String) : Bool := (pyIndex pat.toList hay.toList).isSome

/-- Python's `str.upper` (the identifiers involved are ASCII). -/
def pyUpper (s : String) : String := String.mk (s.toList.map Char.toUpper)

/-! ## Executor / scaler (`src/executor.py`) -/

/-- A SQLite cell value as the executor sees it: integer, float
(modelled over ℚ), text, or NULL. -/
inductive Value where
  | intV (n : Int)
  | floatV (q : ℚ)
  | textV (s : String)
  | nullV
deriving DecidableEq, Repr

/-- `isinstance(value, (int, float))`. -/
def Value.isNumeric : Value → Bool
  | .intV _ => true
  | .floatV _ => true
  | _ => false

/-- Python's `value * scale`: an int or float multiplied by a float
gives a float. -/
def scaleValue (scale : ℚ) : Value → Value
  | .intV n => .floatV (n * scale)
  | .floatV q => .floatV (q * scale)
  | v => v

/-- A result row: the dict `column → value` built by `execute_query`. -/
def Row : Type := String → Option Value

/-- The aggregate-column test of `_scale_sample_results`: the
uppercased name contains one of COUNT, SUM, TOTAL, REVENUE, ORDERS. -/
def needsScaling (col : String) : Bool :=
  ["COUNT", "SUM", "TOTAL", "REVENUE", "ORDERS"].any (fun kw => pyContains (pyUpper col) kw)

/-- The body of the inner loop of `_scale_sample_results` for one
column: skip a column absent from the row, scale its value in place
when the column matches and the value is numeric. -/
def scaleRowStep (scale : ℚ) (row : Row) (col : String) : Row :=
  match row col with
  | none => row
  | some v =>
    if needsScaling col && v.isNumeric then
      fun c => if c = col then some (scaleValue scale v) else row c
    else row

/-- The inner loop of `_scale_sample_results` over all result columns. -/
def scaleRow (scale : ℚ) (columns : List String) (row : Row) : Row :=
  columns.foldl (scaleRowStep scale) row

/-- `_scale_sample_results`: a no-op when `fraction ≤ 0` or there are
no rows; otherwise every row is updated in place with
`scale = 1/fraction`. -/
def scale_sample_results (results : List Row) (fraction : ℚ) (columns : List String) :
    List Row :=
  if fraction ≤ 0 ∨ results.isEmpty then results
  else results.map (scaleRow (1 / fraction) columns)

/-! ## Decimal fixed-point formatting (Python `format(f, ".3f")`)

Python formats the exact value of the float with round-half-to-even;
the floats that occur here are modelled over `ℚ`, on which the same
rounding is applied. -/

/-- Round half to even. -/
def rndHalfEven (q : ℚ) : Int :=
  if q - ⌊q⌋ > 1 / 2 then ⌊q⌋ + 1
  else if q - ⌊q⌋ < 1 / 2 then ⌊q⌋
  else if ⌊q⌋ % 2 = 0 then ⌊q⌋ else ⌊q⌋ + 1

/-- The character of a decimal digit. -/
def digitChar (n : Nat) : Char := Char.ofNat (48 + n)

/-- Exactly `k` decimal digits of `n` (`n < 10^k`), most significant
first, zero padded. -/
def padDigits : Nat → Nat → List Char
  | 0, _ => []
  | k + 1, n => padDigits k (n / 10) ++ [digitChar (n % 10)]

/-- Unpadded decimal digits (fuel-based; `fuel ≥ n` suffices since a
number has at most `n` digits). -/
def natDigitsFuel : Nat → Nat → List Char
  | 0, _ => []
  | fuel + 1, n => if n = 0 then [] else natDigitsFuel fuel (n / 10) ++ [digitChar (n % 10)]

/-- Decimal representation of a natural number. -/
def natDigits (n : Nat) : List Char :=
  if n = 0 then ['0'] else natDigitsFuel n n

/-- `format(q, ".kf")` for `q ≥ 0`: integer part, a dot, and `k`
fractional digits, with round-half-even at the last digit. -/
def fmtFixed (q : ℚ) (k : Nat) : List Char :=
  let n := (rndHalfEven (q * 10 ^ k)).toNat
  natDigits (n / 10 ^ k) ++ '.' :: padDigits k (n % 10 ^ k)

/-- `str.rstrip("0")`. -/
def rstripZeros (s : List Char) : List Char := (s.reverse.dropWhile (fun c => c = '0')).reverse

/-! ## Sampler (`src/sampler.py`)

Database effects are modelled by an oracle (`SamplerDb`) answering the
queries the sampler issues, plus an explicit trace of the statements it
executes, so that "raises before issuing any SQL" is expressible. -/

/-- `sampler._fraction_name`: fraction rendered with 3 decimals (6 when
below 0.001), dot replaced by underscore, trailing zeros stripped,
re-padded with one zero if the digits were all stripped, and prefixed
with `0_` if needed. -/
def fraction_name (f : ℚ) : String :=
  if f ≤ 0 then "0_000"
  else
    let s0 := if f < 1 / 1000 then fmtFixed f 6 else fmtFixed f 3
    let s1 := s0.map (fun c => if c = '.' then '_' else c)
    let s2 := rstripZeros s1
    let s3 := if s2.getLast? = some '_' then s2 ++ ['0'] else s2
    let s4 := if ['0', '_'].isPrefixOf s3 then s3 else '0' :: '_' :: s3
    String.mk s4

/-- One stratum record as built by `_analyze_strata` and mutated by the
allocation and reconciliation steps. -/
structure Stratum where
  strata_key : String
  strata_value : String
  pop_size : Nat
  mean_val : ℚ
  variance : ℚ
  sample_size : Nat
  fraction : ℚ
  weight : ℚ
deriving DecidableEq, Repr

/-- Statements the sampler executes, in order, with the data they
carry. -/
inductive SamplerStmt where
  | dropTable (name : String)
  | createUniformSample (name table : String) (fraction : ℚ)
  | countRows (table : String)
  | upsertTableStats (table : String) (rowCount : Nat)
  | insertSampleMeta (table sample : String) (fraction : ℚ) (strataCol : Option String)
  | analyzeStrata (table strataCol : String) (varianceCol : Option String)
  | createStratifiedSample (name table strataCol : String) (strata : List Stratum)
  | recountStrata (name strataCol : String)
  | insertStratumMeta (sample : String) (s : Stratum)
  | commit
deriving DecidableEq, Repr

/-- Oracle for the backing store: `COUNT(*)` results, the
`_analyze_strata` GROUP BY rows `(value, pop_size, mean, variance)`,
and the reconciliation recount rows of the materialized sample. -/
structure SamplerDb where
  rowCount : String → Nat
  analyzeRows : String → String → Option String → List (String × Nat × ℚ × ℚ)
  recount : String → String → List (String × Nat)

/-- `_analyze_strata`: one `Stratum` per GROUP BY row, with zero
`sample_size`/`fraction`/`weight`. -/
def analyze_strata (db : SamplerDb) (table strata_col : String) (variance_col : Option String) :
    List Stratum :=
  (db.analyzeRows table strata_col variance_col).map (fun r =>
    { strata_key := strata_col, strata_value := r.1, pop_size := r.2.1,
      mean_val := r.2.2.1, variance := r.2.2.2, sample_size := 0, fraction := 0, weight := 0 })

/-- `_allocate_proportional`: every stratum gets the total fraction and
`sample_size = int(pop_size * fraction)`. -/
def allocate_proportional (strata : List Stratum) (total_fraction : ℚ) : List Stratum :=
  strata.map (fun s =>
    { s with fraction := total_fraction,
             sample_size := (⌊(s.pop_size : ℚ) * total_fraction⌋).toNat,
             weight := (s.pop_size : ℚ) })

/-- `_allocate_neyman_optimal`; `math.sqrt` is an external float
operation, passed as an oracle `sqrtA`. -/
def allocate_neyman_optimal (sqrtA : ℚ → ℚ) (strata : List Stratum) (total_fraction : ℚ) :
    List Stratum :=
  let total_pop : ℚ := (strata.map (fun s => ((s.pop_size : ℚ)))).sum
  let strata1 := strata.map (fun s => { s with weight := (s.pop_size : ℚ) * sqrtA s.variance })
  let total_weight := (strata1.map (fun s => s.weight)).sum
  let total_sample_size := total_pop * total_fraction
  strata1.map (fun s =>
    let s1 : Stratum :=
      if total_weight > 0 then
        let ss := (⌊total_sample_size * s.weight / total_weight⌋).toNat
        { s with sample_size := ss, fraction := (ss : ℚ) / (s.pop_size : ℚ) }
      else
        { s with fraction := total_fraction,
                 sample_size := (⌊(s.pop_size : ℚ) * total_fraction⌋).toNat }
    if s1.fraction > 1 then { s1 with fraction := 1, sample_size := s1.pop_size } else s1)

/-- `_update_actual_sample_sizes`: overwrite `sample_size` and
`fraction` with the achieved counts — but only for strata present in
the recount rows; a stratum absent from the materialized table keeps
its target values. -/
def update_actual_sample_sizes (strata : List Stratum) (actualCounts : List (String × Nat)) :
    List Stratum :=
  strata.map (fun s =>
    match actualCounts.lookup s.strata_value with
    | some c => { s with sample_size := c, fraction := (c : ℚ) / (s.pop_size : ℚ) }
    | none => s)

/-- `create_uniform_sample`: validates the fraction before any SQL,
then drops/creates/counts the sample and records the metadata.  Returns
the trace of issued statements and the Python return value (or the
raised `ValueError`). -/
def create_uniform_sample (db : SamplerDb) (table : String) (fraction : ℚ) :
    List SamplerStmt × Except String (String × Nat) :=
  if fraction ≤ 0 ∨ fraction ≥ 1 then ([], .error "Invalid fraction")
  else
    let name := table ++ "__sample_" ++ fraction_name fraction
    let cnt := db.rowCount name
    let base := db.rowCount table
    ([.dropTable name, .createUniformSample name table fraction, .countRows name, .commit,
      .countRows table, .upsertTableStats table base,
      .insertSampleMeta table name fraction none, .commit],
     .ok (name, cnt))

/-- `create_stratified_sample`: validates the fraction before any SQL,
then analyzes, allocates (Neyman when a variance column is given),
materializes, reconciles and records. -/
def create_stratified_sample (db : SamplerDb) (sqrtA : ℚ → ℚ) (table strata_col : String)
    (total_fraction : ℚ) (variance_col : Option String) :
    List SamplerStmt × Except String (String × List Stratum) :=
  if total_fraction ≤ 0 ∨ total_fraction ≥ 1 then ([], .error "Invalid total fraction")
  else
    let strata0 := analyze_strata db table strata_col variance_col
    let strata1 :=
      match variance_col with
      | some _ => allocate_neyman_optimal sqrtA strata0 total_fraction
      | none => allocate_proportional strata0 total_fraction
    let name := table ++ "__strat_sample_" ++ strata_col ++ "_" ++ fraction_name total_fraction
    let actual := db.recount name strata_col
    let strata2 := update_actual_sample_sizes strata1 actual
    (([.analyzeStrata table strata_col variance_col, .dropTable name,
       .createStratifiedSample name table strata_col strata1, .recountStrata name strata_col,
       .insertSampleMeta table name total_fraction (some strata_col)]
      ++ strata2.map (.insertStratumMeta name) ++ [.commit, .commit]),
     .ok (name, strata2))

/-- Whether an `Except` result is a raised exception. -/
def isErr {ε α : Type} : Except ε α → Bool
  | .error _ => true
  | .ok _ => false

/-! ## Planner (`src/planner.py`)

The SQLite connection is an oracle (`PlannerDb`) answering exactly the
queries `_get_table_stats` and `_evaluate_sample_strategy` issue;
`math.sqrt` is an oracle `sqrtA`. -/

/-- Python's regex `\s` on ASCII. -/
def isSpaceChar (c : Char) : Bool :=
  c = ' ' || c = '\t' || c = '\n' || c.toNat = 13 || c.toNat = 11 || c.toNat = 12

/-- Python's regex `[a-zA-Z0-9_]` (also `\w` / `\b` word characters). -/
def isIdentChar (c : Char) : Bool :=
  (97 ≤ c.toNat && c.toNat ≤ 122) || (65 ≤ c.toNat && c.toNat ≤ 90) ||
    (48 ≤ c.toNat && c.toNat ≤ 57) || c = '_'

/-- One attempt of `re.search(r'FROM\s+([a-zA-Z0-9_]+)', sql, IGNORECASE)`
at the current position: `FROM`, at least one whitespace, then a
maximal non-empty identifier run. -/
def tryMatchFrom : List Char → Option String
  | f :: r :: o :: m :: rest =>
    if f.toUpper = 'F' ∧ r.toUpper = 'R' ∧ o.toUpper = 'O' ∧ m.toUpper = 'M' then
      match rest with
      | c :: cs =>
        if isSpaceChar c then
          let ident := ((c :: cs).dropWhile isSpaceChar).takeWhile isIdentChar
          if ident.isEmpty then none else some (String.mk ident)
        else none
      | [] => none
    else none
  | _ => none

def extractTableNameAux : List Char → Option String
  | [] => none
  | c :: rest =>
    match tryMatchFrom (c :: rest) with
    | some t => some t
    | none => extractTableNameAux rest

/-- `Planner._extract_table_name`. -/
def extract_table_name (sql : String) : Option String := extractTableNameAux sql.toList

/-- One attempt of `re.search(r'\bGROUP\s+BY\b', sql_upper)` at the
current position (the input is already uppercased). -/
def matchGroupByAt : List Char → Bool
  | 'G' :: 'R' :: 'O' :: 'U' :: 'P' :: rest =>
    match rest with
    | c :: cs =>
      if isSpaceChar c then
        match (c :: cs).dropWhile isSpaceChar with
        | 'B' :: 'Y' :: rest2 =>
          match rest2 with
          | [] => true
          | d :: _ => !(isIdentChar d)
        | _ => false
      else false
    | [] => false
  | _ => false

def hasGroupByScan : Option Char → List Char → Bool
  | _, [] => false
  | prev, c :: rest =>
    ((match prev with | none => true | some p => !(isIdentChar p)) && matchGroupByAt (c :: rest))
      || hasGroupByScan (some c) rest

/-- The `has_group_by` feature of `Planner._parse_query_features`
(the only feature `plan` ever reads: `has_distinct`,
`aggregate_types`, `group_by_columns` and `is_heavy_hitter` are
computed but not consumed on any path of `plan`). -/
def has_group_by (sql : String) : Bool := hasGroupByScan none (pyUpper sql).toList

/-- Split a character list at every occurrence of `sep` (Python
`str.split(sep)`, which yields `[""]` on the empty string). -/
def splitOnChar (sep : Char) : List Char → List (List Char)
  | [] => [[]]
  | c :: rest =>
    let r := splitOnChar sep rest
    if c = sep then [] :: r
    else
      match r with
      | h :: t => (c :: h) :: t
      | [] => [[c]]

def isDigitChar (c : Char) : Bool := 48 ≤ c.toNat && c.toNat ≤ 57

def digitVal (c : Char) : Nat := c.toNat - 48

def digitsVal (l : List Char) : Nat := l.foldl (fun a c => 10 * a + digitVal c) 0

/-- Python `float(s)` restricted to the plain decimal strings the
fraction encodings produce (`ddd`, `ddd.ddd`, `.ddd`, `ddd.`); other
accepted Python forms (signs, exponents, `inf`/`nan`, whitespace)
never arise from the underscore-to-dot rewriting and are treated as
failures. -/
def parseFloatQ (s : List Char) : Option ℚ :=
  match splitOnChar '.' s with
  | [ip] => if ip ≠ [] ∧ ip.all isDigitChar then some (digitsVal ip) else none
  | [ip, fp] =>
    if (ip ++ fp) ≠ [] ∧ ip.all isDigitChar ∧ fp.all isDigitChar then
      some ((digitsVal ip : ℚ) + (digitsVal fp : ℚ) / 10 ^ fp.length)
    else none
  | _ => none

/-- `Planner._parse_sample_table_name`: recognize `T__sample_F` (then
`T__strat_sample_COL_F`) and parse the fraction back from `F` with
underscores turned into dots; on any parse failure fall through and
finally report `(name, 0, False)`. -/
def parse_sample_table_name (table_name : String) : String × ℚ × Bool :=
  let l := table_name.toList
  let uniformCase : Option (String × ℚ × Bool) :=
    match pyIndex ("__sample_".toList) l with
    | some idx =>
      match parseFloatQ ((l.drop (idx + 9)).map (fun c => if c = '_' then '.' else c)) with
      | some q => some (String.mk (l.take idx), q, true)
      | none => none
    | none => none
  match uniformCase with
  | some r => r
  | none =>
    match pyIndex ("__strat_sample_".toList) l with
    | some idx =>
      let parts := splitOnChar '_' (l.drop (idx + 15))
      match parts.drop (parts.length - 2) with
      | [p1, p2] =>
        if parts.length ≥ 2 then
          match parseFloatQ (p1 ++ '.' :: p2) with
          | some q => (String.mk (l.take idx), q, true)
          | none => (table_name, 0, false)
        else (table_name, 0, false)
      | _ => (table_name, 0, false)
    | none => (table_name, 0, false)

/-- The statistics `_get_table_stats` assembles (the unused
`distinct_value_counts` dict is omitted). -/
structure TableStats where
  row_count : Nat
  has_sketches : List (String × String)
  best_sample_fraction : ℚ
deriving Repr

/-- Oracle for the planner's SQLite queries.  `statsQueryFails` models
an exception in the row-count step (the only one whose `except` aborts
`_get_table_stats`); `sketchRows`/`bestFraction` return `none` when
their query raises (those exceptions are swallowed). -/
structure PlannerDb where
  statsQueryFails : String → Bool
  aqeStatsRow : String → Option Nat
  countAll : String → Nat
  sketchRows : String → Option (List (String × String))
  bestFraction : String → Option (Option ℚ)
  sampleTableExists : String → Bool

/-- `Planner._get_table_stats`. -/
def get_table_stats (db : PlannerDb) (table : String) : Option TableStats :=
  if db.statsQueryFails table then none
  else
    let rc :=
      match db.aqeStatsRow table with
      | some n => n
      | none => db.countAll table
    let bf :=
      match db.bestFraction table with
      | some (some f) => f
      | _ => 0
    some { row_count := rc, has_sketches := (db.sketchRows table).getD [],
           best_sample_fraction := bf }

/-- The transient plan dictionary; keys a construction site omits are
`none`.  The human-readable `reason` strings are abbreviated (they
carry no behaviour). -/
structure Plan where
  ptype : String
  sql : String
  originalSql : String
  table : Option String
  sampleTable : Option String
  sampleFraction : Option ℚ
  estimatedCost : Option ℚ
  estimatedError : Option ℚ
  reason : String
deriving Repr

/-- `Planner._estimate_exact_cost` with the fixed cost model
(`scan_cost_per_row = 1.0`, `hash_cost_per_group = 2.0`). -/
def estimate_exact_cost (hasGB : Bool) (row_count : Nat) : ℚ :=
  let cost : ℚ := (row_count : ℚ) * 1
  if hasGB then cost + ((min row_count 10000 : ℕ) : ℚ) * 2 else cost

/-- `Planner._fraction_name` (note: unlike the sampler's version, no
`0_` prefix and no 6-digit branch). -/
def planner_fraction_name (f : ℚ) : String :=
  if f ≤ 0 then "0_000"
  else
    let s1 := (fmtFixed f 3).map (fun c => if c = '.' then '_' else c)
    let s2 := rstripZeros s1
    String.mk (if s2.getLast? = some '_' then s2 ++ ['0'] else s2)

/-- Python `str.replace` (non-overlapping, left to right), for a
non-empty pattern. -/
def pyReplace (s pat rep : String) : String :=
  String.intercalate rep (s.splitOn pat)

/-- `Planner._evaluate_sample_strategy` (`sample_setup_cost = 5.0`). -/
def evaluate_sample_strategy (db : PlannerDb) (sqrtA : ℚ → ℚ) (sql table : String)
    (stats : TableStats) : Option Plan :=
  let fraction := stats.best_sample_fraction
  let sample_table := table ++ "__sample_" ++ planner_fraction_name fraction
  if db.sampleTableExists sample_table = false then none
  else
    let estimated_error := sqrtA (1 / (fraction * (stats.row_count : ℚ)))
    let sample_cost : ℚ := (stats.row_count : ℚ) * fraction * 1 + 5
    some { ptype := "sample", sql := pyReplace sql table sample_table, originalSql := sql,
           table := some table, sampleTable := some sample_table,
           sampleFraction := some fraction, estimatedCost := some sample_cost,
           estimatedError := some estimated_error, reason := "using sample" }

/-- `Planner._evaluate_strategies`: the exact plan (error 0) first,
then the sample plan when a best fraction exists and the physical
sample table is present. -/
def evaluate_strategies (db : PlannerDb) (sqrtA : ℚ → ℚ) (sql table : String)
    (hasGB : Bool) (stats : TableStats) : List Plan :=
  let exact : Plan :=
    { ptype := "exact", sql := sql, originalSql := sql, table := some table,
      sampleTable := none, sampleFraction := none,
      estimatedCost := some (estimate_exact_cost hasGB stats.row_count),
      estimatedError := some 0, reason := "exact execution" }
  if stats.best_sample_fraction > 0 then
    match evaluate_sample_strategy db sqrtA sql table stats with
    | some p => [exact, p]
    | none => [exact]
  else [exact]

/-- The cost key of `_choose_best_strategy`
(`s.get("estimated_cost", float('inf'))`). -/
def planCost (p : Plan) : WithTop ℚ :=
  match p.estimatedCost with
  | some c => (c : WithTop ℚ)
  | none => ⊤

/-- `Planner._choose_best_strategy`: drop candidates whose
`estimated_error` (default 0) exceeds the budget; if none survive
return the first strategy (the exact plan); otherwise the first
minimum-cost survivor. -/
def choose_best_strategy (strategies : List Plan) (max_rel_error : ℚ) : Plan :=
  match strategies with
  | [] =>
    { ptype := "exact", sql := "", originalSql := "", table := none, sampleTable := none,
      sampleFraction := none, estimatedCost := none, estimatedError := none,
      reason := "no strategies available" }
  | s0 :: _ =>
    match strategies.filter (fun s => s.estimatedError.getD 0 ≤ max_rel_error) with
    | [] => s0
    | v0 :: vrest => vrest.foldl (fun best s => if planCost s < planCost best then s else best) v0

/-- `Planner.plan`. -/
def Planner.plan (db : PlannerDb) (sqrtA : ℚ → ℚ) (sql : String) (max_rel_error : ℚ)
    (prefer_exact : Bool) : Plan :=
  match extract_table_name sql with
  | none =>
    { ptype := "exact", sql := sql, originalSql := sql, table := none, sampleTable := none,
      sampleFraction := none, estimatedCost := none, estimatedError := none,
      reason := "no table found" }
  | some table =>
    let parsed := parse_sample_table_name table
    if parsed.2.2 then
      { ptype := "sample", sql := sql, originalSql := sql, table := some parsed.1,
        sampleTable := some table, sampleFraction := some parsed.2.1, estimatedCost := none,
        estimatedError := none, reason := "direct query on sample table" }
    else if prefer_exact then
      { ptype := "exact", sql := sql, originalSql := sql, table := some table,
        sampleTable := none, sampleFraction := none, estimatedCost := none,
        estimatedError := none, reason := "user prefers exact" }
    else
      match get_table_stats db table with
      | none =>
        { ptype := "exact", sql := sql, originalSql := sql, table := some table,
          sampleTable := none, sampleFraction := none, estimatedCost := none,
          estimatedError := none, reason := "no table stats available" }
      | some stats =>
        choose_best_strategy (evaluate_strategies db sqrtA sql table (has_group_by sql) stats)
          max_rel_error

/-! ## MLOptimizer (`src/ml_optimizer.py`)

Only the fields `_choose_base_strategy` and
`_choose_strategy_with_learning` read are modelled. -/

/-- The query-feature fields the strategy choice reads. -/
structure Features where
  table_size : Nat
  has_count : Bool
  has_sum : Bool
  has_avg : Bool
  has_distinct : Bool
  has_group_by : Bool
  group_by_cardinality : Nat
  error_tolerance : ℚ
deriving Repr

/-- One historical row as `_get_historical_performance` returns it
(the identifying columns carry no behaviour here). -/
structure PerfRow where
  strategy : String
  actual_speedup : ℚ
  actual_error : ℚ
deriving DecidableEq, Repr

/-- `MLOptimizer._choose_base_strategy`. -/
def choose_base_strategy (f : Features) : String × ℚ :=
  if f.table_size ≤ 1000 then ("exact", 95 / 100)
  else if f.has_distinct ∧ f.has_count ∧ (1 / 1000 : ℚ) < f.error_tolerance then
    ("sketch", 9 / 10)
  else if f.has_group_by ∧ (1 / 1000 : ℚ) < f.error_tolerance then
    (if 10000 < f.table_size ∧ 1 < f.group_by_cardinality then ("stratified", 85 / 100)
     else ("sketch", 8 / 10))
  else if 5000 < f.table_size ∧ (1 / 1000 : ℚ) < f.error_tolerance ∧
      (f.has_count ∨ f.has_sum ∨ f.has_avg) then ("sample", 85 / 100)
  else if 1000 < f.table_size ∧ (1 / 1000 : ℚ) < f.error_tolerance ∧
      (f.has_count ∨ f.has_sum) then ("sample", 75 / 100)
  else ("exact", 6 / 10)

/-- The per-strategy accumulator dict `strategy_perf` (the code sums
into keys named `avg_*` and divides later). -/
structure StratGroup where
  strategy : String
  count : Nat
  sumSpeedup : ℚ
  sumError : ℚ
deriving DecidableEq, Repr

/-- Accumulate one history row (dicts keep first-insertion order, so a
new strategy is appended at the end). -/
def groupAdd (gs : List StratGroup) (h : PerfRow) : List StratGroup :=
  if gs.any (fun g => g.strategy = h.strategy) then
    gs.map (fun g =>
      if g.strategy = h.strategy then
        { g with count := g.count + 1, sumSpeedup := g.sumSpeedup + h.actual_speedup,
                 sumError := g.sumError + h.actual_error }
      else g)
  else
    gs ++ [{ strategy := h.strategy, count := 1, sumSpeedup := h.actual_speedup,
             sumError := h.actual_error }]

/-- The grouping loop of `_choose_strategy_with_learning`. -/
def groupStrategies (hist : List PerfRow) : List StratGroup := hist.foldl groupAdd []

/-- `avg_speedup * 0.6 - avg_error * 0.4`. -/
def groupScore (g : StratGroup) : ℚ :=
  g.sumSpeedup / (g.count : ℚ) * (6 / 10) - g.sumError / (g.count : ℚ) * (4 / 10)

/-- `avg_error` of a group. -/
def groupAvgError (g : StratGroup) : ℚ := g.sumError / (g.count : ℚ)

/-- `min(0.6 + 0.3 * (count / 10), 0.95)`. -/
def learnConfidence (g : StratGroup) : ℚ :=
  min ((6 : ℚ) / 10 + (3 / 10) * ((g.count : ℚ) / 10)) (95 / 100)

/-- The selection loop body: accept a strategy whose score beats the
best so far (initially 0) provided its average error is within
`1.2 · ε`. -/
def chooseLearnFold (ε : ℚ) (st : ℚ × String × ℚ) (g : StratGroup) : ℚ × String × ℚ :=
  if 0 < g.count then
    if st.1 < groupScore g ∧ groupAvgError g ≤ ε * (12 / 10) then
      (groupScore g, g.strategy, learnConfidence g)
    else st
  else st

/-- `MLOptimizer._choose_strategy_with_learning`: base rules, then the
learning override over the grouped history. -/
def choose_strategy_with_learning (f : Features) (hist : List PerfRow) : String × ℚ :=
  let base := choose_base_strategy f
  if hist.isEmpty then base
  else
    let res := (groupStrategies hist).foldl (chooseLearnFold f.error_tolerance)
      (0, base.1, base.2)
    (res.2.1, res.2.2)

/-- A group that passes the error gate (`avg_error ≤ 1.2·ε`) with a
positive row count. -/
def qualifies (ε : ℚ) (g : StratGroup) : Prop :=
  0 < g.count ∧ groupAvgError g ≤ ε * (12 / 10)

end AQE

namespace AQE

/-! # Theorems -/

/-! ## Byte-encoding helper lemmas -/

theorem length_leEnc (k n : Nat) : (leEnc k n).length = k := by
  induction k generalizing n with
  | zero => rfl
  | succ k ih => simp [leEnc, ih]

theorem leDec_leEnc (k n : Nat) (h : n < 256 ^ k) : leDec (leEnc k n) = n := by
  induction k generalizing n with
  | zero => simp at h; simp [leEnc, leDec, h]
  | succ k ih =>
      have hlt : n / 256 < 256 ^ k := by
        rw [Nat.div_lt_iff_lt_mul (by norm_num)]
        calc n < 256 ^ (k + 1) := h
        _ = 256 ^ k * 256 := by ring
      simp [leEnc, leDec, ih _ hlt]
      omega

/-! ## List helper lemmas -/

theorem getD_set (l : List Nat) (j i v : Nat) :
    (l.set j v).getD i 0 = if j = i ∧ j < l.length then v else l.getD i 0 := by
  simp only [List.getD_eq_getElem?_getD, List.getElem?_set]
  by_cases hji : j = i
  · subst hji
    by_cases hlen : j < l.length
    · simp [hlen]
    · simp [hlen, List.getElem?_eq_none (Nat.le_of_not_lt hlen)]
  · simp [hji]

theorem getD_zipWith_max (l1 l2 : List Nat) (i : Nat) (hlen : l1.length = l2.length) :
    (List.zipWith max l1 l2).getD i 0 = max (l1.getD i 0) (l2.getD i 0) := by
  simp only [List.getD_eq_getElem?_getD, List.getElem?_zipWith]
  by_cases hi : i < l1.length
  · rw [List.getElem?_eq_getElem hi, List.getElem?_eq_getElem (by omega)]
    rfl
  · rw [List.getElem?_eq_none (by omega), List.getElem?_eq_none (by omega)]
    simp

theorem mem_zipWith_max_bound (l1 l2 : List Nat) (B : Nat)
    (h1 : ∀ r ∈ l1, r ≤ B) (h2 : ∀ r ∈ l2, r ≤ B) :
    ∀ r ∈ List.zipWith max l1 l2, r ≤ B := by
  intro r hr
  rw [List.mem_iff_getElem] at hr
  obtain ⟨i, hi, hrv⟩ := hr
  rw [List.getElem_zipWith] at hrv
  have hi1 : i < l1.length := by simp [List.length_zipWith] at hi; omega
  have hi2 : i < l2.length := by simp [List.length_zipWith] at hi; omega
  have := h1 _ (List.getElem_mem hi1)
  have := h2 _ (List.getElem_mem hi2)
  omega

/-! ## HyperLogLog lemmas and claims (C9, C10) -/

theorem rhoAux_le (b fuel w lz : Nat) (h : lz ≤ 64 - b + 1) :
    rhoAux b fuel w lz ≤ 64 - b + 1 := by
  induction fuel generalizing w lz with
  | zero => simpa [rhoAux] using h
  | succ fuel ih =>
      simp only [rhoAux]
      split
      · split
        · omega
        · exact ih _ _ (by omega)
      · exact h

theorem rhoLoop_le (b w : Nat) : rhoLoop b w 1 ≤ 64 - b + 1 :=
  rhoAux_le _ _ _ _ (by omega)

theorem addHash_b (h : HyperLogLog) (hv : Nat) : (h.addHash hv).b = h.b := by
  simp only [HyperLogLog.addHash]
  split <;> rfl

theorem addHash_m (h : HyperLogLog) (hv : Nat) : (h.addHash hv).m = h.m := by
  simp only [HyperLogLog.addHash]
  split <;> rfl

theorem addHash_length (h : HyperLogLog) (hv : Nat) :
    (h.addHash hv).registers.length = h.registers.length := by
  simp only [HyperLogLog.addHash]
  split <;> simp

theorem addHash_regInv (h : HyperLogLog) (hv : Nat) (hinv : h.RegInv) :
    (h.addHash hv).RegInv := by
  obtain ⟨hlen, hbd⟩ := hinv
  simp only [HyperLogLog.RegInv, HyperLogLog.addHash]
  split
  · refine ⟨by simpa using hlen, ?_⟩
    intro r hr
    rcases List.mem_or_eq_of_mem_set hr with h1 | h1
    · exact hbd r h1
    · subst h1; exact rhoLoop_le _ _
  · exact ⟨hlen, hbd⟩

theorem addHash_mono (h : HyperLogLog) (hv i : Nat) :
    h.registers.getD i 0 ≤ (h.addHash hv).registers.getD i 0 := by
  simp only [HyperLogLog.addHash]
  split
  · rename_i hlt
    rw [getD_set]
    split
    · rename_i hcond
      rw [← hcond.1]
      omega
    · exact le_refl _
  · exact le_refl _

theorem merge_fields (h o r : HyperLogLog) (hr : h.merge o = some r) :
    h.b = o.b ∧ h.m = o.m ∧ r.b = h.b ∧ r.m = h.m ∧
      r.registers = List.zipWith max h.registers o.registers := by
  simp only [HyperLogLog.merge] at hr
  split at hr
  · exact absurd hr (by simp)
  · rename_i hcond
    push_neg at hcond
    cases hr
    exact ⟨hcond.2, hcond.1, rfl, rfl, rfl⟩

/-- C9 (helper): a single `add` or `merge` step preserves the register
invariant, keeps `b` and `m`, and never decreases a register. -/
theorem applyOp_step (h r : HyperLogLog) (op : HllOp)
    (hinv : h.RegInv)
    (hop : ∀ g, op = HllOp.mergeOp g → g.RegInv)
    (happ : h.applyOp op = some r) :
    r.RegInv ∧ r.b = h.b ∧ r.m = h.m ∧
      ∀ i, h.registers.getD i 0 ≤ r.registers.getD i 0 := by
  cases op with
  | addOp hv =>
      simp only [HyperLogLog.applyOp] at happ
      cases happ
      exact ⟨addHash_regInv h hv hinv, addHash_b h hv, addHash_m h hv, addHash_mono h hv⟩
  | mergeOp g =>
      simp only [HyperLogLog.applyOp] at happ
      obtain ⟨hbo, hmo, hrb, hrm, hregs⟩ := merge_fields h g r happ
      obtain ⟨hlen, hbd⟩ := hinv
      obtain ⟨glen, gbd⟩ := hop g rfl
      have hll : h.registers.length = g.registers.length := by omega
      refine ⟨⟨?_, ?_⟩, hrb, hrm, ?_⟩
      · rw [hregs, List.length_zipWith]
        omega
      · rw [hregs, hrb]
        refine mem_zipWith_max_bound _ _ _ hbd ?_
        intro x hx
        have := gbd x hx
        omega
      · intro i
        rw [hregs, getD_zipWith_max _ _ _ hll]
        exact Nat.le_max_left _ _

/-- C9: over any sequence of `add`/`merge` operations starting from a
well-formed instance (and merging only well-formed instances), every
register stays in `[0, 64 - b + 1]` — in particular below 256, so it
fits the one-byte-per-register serialization — and no operation ever
decreases a register. -/
theorem hll_register_invariant (h h' : HyperLogLog) (ops : List HllOp)
    (hinv : h.RegInv)
    (hops : ∀ g, HllOp.mergeOp g ∈ ops → g.RegInv)
    (happ : h.applyOps ops = some h') :
    h'.b = h.b ∧ h'.RegInv ∧ (∀ r ∈ h'.registers, r < 256) ∧
      ∀ i, h.registers.getD i 0 ≤ h'.registers.getD i 0 := by
  induction ops generalizing h with
  | nil =>
      simp only [HyperLogLog.applyOps, List.foldlM_nil, Option.pure_def,
        Option.some.injEq] at happ
      subst happ
      refine ⟨rfl, hinv, ?_, fun i => le_refl _⟩
      intro r hr
      have := hinv.2 r hr
      omega
  | cons op rest ih =>
      simp only [HyperLogLog.applyOps, List.foldlM_cons] at happ
      cases hstep : h.applyOp op with
      | none => rw [hstep] at happ; simp at happ
      | some h1 =>
          rw [hstep] at happ
          simp only [Option.bind_eq_bind, Option.some_bind] at happ
          obtain ⟨h1inv, h1b, h1m, h1mono⟩ :=
            applyOp_step h h1 op hinv (fun g hg => hops g (hg ▸ List.mem_cons_self _ _)) hstep
          obtain ⟨hb, hinv', hbyte, hmono⟩ :=
            ih h1 h1inv (fun g hg => hops g (List.mem_cons_of_mem _ hg)) happ
          refine ⟨by omega, hinv', hbyte, ?_⟩
          intro i
          exact le_trans (h1mono i) (hmono i)

/-- C10: the constructor clamps out-of-range `b` to 10 (so `m = 1024`),
and every constructed instance has `4 ≤ b ≤ 16` and `m = 2^b`. -/
theorem hll_init_in_range (b : Int) :
    ((b < 4 ∨ b > 16) → (HyperLogLog.init b).b = 10 ∧ (HyperLogLog.init b).m = 1024) ∧
    4 ≤ (HyperLogLog.init b).b ∧ (HyperLogLog.init b).b ≤ 16 ∧
    (HyperLogLog.init b).m = 2 ^ (HyperLogLog.init b).b := by
  have hbdef : (HyperLogLog.init b).b = if b < 4 ∨ b > 16 then 10 else b.toNat := rfl
  have hm : (HyperLogLog.init b).m = 2 ^ (HyperLogLog.init b).b := rfl
  by_cases hb : b < 4 ∨ b > 16
  · rw [if_pos hb] at hbdef
    refine ⟨fun _ => ⟨hbdef, ?_⟩, by omega, by omega, hm⟩
    rw [hm, hbdef]
    norm_num
  · rw [if_neg hb] at hbdef
    have hb2 := hb
    push_neg at hb2
    refine ⟨fun hc => absurd hc hb, by omega, by omega, hm⟩

/-- Witness for C9 at a concrete instance and operation sequence. -/
theorem hll_register_invariant_witness :
    (HyperLogLog.init 4).RegInv ∧
    ((HyperLogLog.init 4).applyOps
        [HllOp.addOp 7, HllOp.mergeOp (HyperLogLog.init 4), HllOp.addOp 12345] =
      some ⟨4, 16, [0, 0, 0, 0, 0, 0, 0, 1, 0, 1, 0, 0, 0, 0, 0, 0]⟩) ∧
    ((⟨4, 16, [0, 0, 0, 0, 0, 0, 0, 1, 0, 1, 0, 0, 0, 0, 0, 0]⟩ : HyperLogLog).b =
        (HyperLogLog.init 4).b ∧
      (⟨4, 16, [0, 0, 0, 0, 0, 0, 0, 1, 0, 1, 0, 0, 0, 0, 0, 0]⟩ : HyperLogLog).RegInv ∧
      (∀ r ∈ (⟨4, 16, [0, 0, 0, 0, 0, 0, 0, 1, 0, 1, 0, 0, 0, 0, 0, 0]⟩ : HyperLogLog).registers,
        r < 256) ∧
      ∀ i, (HyperLogLog.init 4).registers.getD i 0 ≤
        (⟨4, 16, [0, 0, 0, 0, 0, 0, 0, 1, 0, 1, 0, 0, 0, 0, 0, 0]⟩ :
          HyperLogLog).registers.getD i 0) := by
  refine ⟨by decide, by decide, ?_⟩
  refine hll_register_invariant (HyperLogLog.init 4) _
    [HllOp.addOp 7, HllOp.mergeOp (HyperLogLog.init 4), HllOp.addOp 12345]
    (by decide) ?_ (by decide)
  intro g hg
  simp only [List.mem_cons, List.not_mem_nil, or_false] at hg
  rcases hg with h | h | h
  · cases h
  · injection h with h2
    subst h2
    decide
  · cases h

/-- Witness for C10 at `b = 20`. -/
theorem hll_init_in_range_witness :
    ((20 : Int) < 4 ∨ (20 : Int) > 16) ∧
      (HyperLogLog.init 20).b = 10 ∧ (HyperLogLog.init 20).m = 1024 :=
  ⟨Or.inr (by norm_num), (hll_init_in_range 20).1 (Or.inr (by norm_num))⟩

/-! ## Serialization round trips (C2) -/

theorem hll_ext (x y : HyperLogLog)
    (hb : x.b = y.b) (hm : x.m = y.m) (hr : x.registers = y.registers) : x = y := by
  cases x; cases y; simp_all

theorem hll_roundtrip (h : HyperLogLog) (hwf : h.WF) :
    HyperLogLog.deserialize h.serialize = some h := by
  obtain ⟨hb4, hb16, hm, hlen, _⟩ := hwf
  have hL : h.serialize.length = 5 + h.m := by
    simp only [HyperLogLog.serialize, List.length_cons, List.length_append, length_leEnc, hlen]
    omega
  have hdrop1 : h.serialize.drop 1 = leEnc 4 h.m ++ h.registers := rfl
  have hdec : leDec ((h.serialize.drop 1).take 4) = h.m := by
    rw [hdrop1, List.take_left' (length_leEnc 4 h.m)]
    refine leDec_leEnc 4 h.m ?_
    rw [hm]
    calc 2 ^ h.b ≤ 2 ^ 16 := Nat.pow_le_pow_right (by norm_num) hb16
    _ < 256 ^ 4 := by norm_num
  have hget0 : h.serialize.getD 0 0 = h.b := rfl
  have hdrop5 : h.serialize.drop 5 = h.registers := by
    show (leEnc 4 h.m ++ h.registers).drop 4 = h.registers
    exact List.drop_left' (length_leEnc 4 h.m)
  have hinitb : (HyperLogLog.init (h.b : Int)).b = h.b := by
    have hdef : (HyperLogLog.init (h.b : Int)).b =
        if (h.b : Int) < 4 ∨ (h.b : Int) > 16 then 10 else (h.b : Int).toNat := rfl
    rw [hdef, if_neg (by push_neg; omega)]
    omega
  have hinitm : (HyperLogLog.init (h.b : Int)).m = h.m := by
    have hdef : (HyperLogLog.init (h.b : Int)).m = 2 ^ (HyperLogLog.init (h.b : Int)).b := rfl
    rw [hdef, hinitb, hm]
  simp only [HyperLogLog.deserialize, hget0, hdec, hL]
  rw [if_neg (by omega), if_neg (by omega)]
  refine congrArg some (hll_ext _ _ hinitb hinitm ?_)
  exact hdrop5

theorem readLe_append (k n : Nat) (rest : List Nat) (hn : n < 256 ^ k) :
    readLe k (leEnc k n ++ rest) = some (n, rest) := by
  unfold readLe
  rw [if_neg (by simp [length_leEnc]), List.take_left' (length_leEnc k n),
    List.drop_left' (length_leEnc k n), leDec_leEnc k n hn]

theorem readRow_append (row : List Int) (rest : List Nat)
    (hv : ∀ v ∈ row, 0 ≤ v ∧ v < 2 ^ 64) :
    readRow row.length ((row.map (fun v => leEnc 8 v.toNat)).flatten ++ rest) =
      some (row, rest) := by
  induction row with
  | nil => simp [readRow]
  | cons v vs ih =>
      have hv0 := hv v (List.mem_cons_self _ _)
      have hlt : v.toNat < 256 ^ 8 := by
        have : (256 : Nat) ^ 8 = 2 ^ 64 := by norm_num
        omega
      simp only [List.map_cons, List.flatten_cons, List.append_assoc, List.length_cons, readRow]
      rw [readLe_append 8 v.toNat _ hlt]
      simp only [Option.bind_eq_bind, Option.some_bind]
      rw [ih (fun x hx => hv x (List.mem_cons_of_mem _ hx))]
      simp [Int.toNat_of_nonneg hv0.1]

theorem readRows_append (t : List (List Int)) (w : Nat) (rest : List Nat)
    (hrow : ∀ row ∈ t, row.length = w ∧ ∀ v ∈ row, 0 ≤ v ∧ v < 2 ^ 64) :
    readRows t.length w
      ((t.map (fun row => (row.map (fun v => leEnc 8 v.toNat)).flatten)).flatten ++ rest) =
      some (t, rest) := by
  induction t with
  | nil => simp [readRows]
  | cons row rows ih =>
      obtain ⟨hrl, hrv⟩ := hrow row (List.mem_cons_self _ _)
      simp only [List.map_cons, List.flatten_cons, List.append_assoc, List.length_cons, readRows]
      have hr := readRow_append row
        ((List.map (fun r => (List.map (fun v => leEnc 8 v.toNat) r).flatten) rows).flatten ++ rest)
        hrv
      rw [hrl] at hr
      rw [hr]
      simp only [Option.bind_eq_bind, Option.some_bind]
      rw [ih (fun r h2 => hrow r (List.mem_cons_of_mem _ h2))]
      rfl

theorem cms_roundtrip (c : CountMinSketch) (hwf : c.WF) :
    CountMinSketch.deserialize c.serialize = some c := by
  obtain ⟨hw, hd, he, hdl, htlen, hrows⟩ := hwf
  have h232 : (256 : Nat) ^ 4 = 2 ^ 32 := by norm_num
  have h264 : (256 : Nat) ^ 8 = 2 ^ 64 := by norm_num
  simp only [CountMinSketch.serialize, CountMinSketch.deserialize, List.append_assoc]
  rw [readLe_append 4 c.w _ (by omega)]
  simp only [Option.bind_eq_bind, Option.some_bind]
  rw [readLe_append 4 c.d _ (by omega)]
  simp only [Option.some_bind]
  rw [readLe_append 8 c.epsilonBits _ (by omega)]
  simp only [Option.some_bind]
  rw [readLe_append 8 c.deltaBits _ (by omega)]
  simp only [Option.some_bind]
  rw [show (c.table.map (fun row => (row.map (fun v => leEnc 8 v.toNat)).flatten)).flatten =
      (c.table.map (fun row => (row.map (fun v => leEnc 8 v.toNat)).flatten)).flatten ++ []
    from (List.append_nil _).symm]
  rw [← htlen, readRows_append c.table c.w [] hrows]
  simp only [Option.bind_eq_bind, Option.some_bind, htlen]
  rfl

/-- C2: serialization round-trips are bit-exact — deserializing the
serialized bytes of a well-formed HyperLogLog (`b ∈ [4,16]`) restores
the same `b`, `m` and register array, and likewise for a well-formed
Count-Min sketch (`w`, `d`, both float bit patterns and the full count
table). -/
theorem serialize_roundtrip_bitexact :
    (∀ h : HyperLogLog, h.WF → HyperLogLog.deserialize h.serialize = some h) ∧
    (∀ c : CountMinSketch, c.WF → CountMinSketch.deserialize c.serialize = some c) :=
  ⟨hll_roundtrip, cms_roundtrip⟩

/-- Witness for C2 at a concrete HLL (`b = 4`) and a concrete
Count-Min sketch (`w = d = 2`). -/
theorem serialize_roundtrip_bitexact_witness :
    ((HyperLogLog.init 4).WF ∧
      HyperLogLog.deserialize (HyperLogLog.init 4).serialize = some (HyperLogLog.init 4)) ∧
    ((CountMinSketch.mk0 2 2 5 7).WF ∧
      CountMinSketch.deserialize (CountMinSketch.mk0 2 2 5 7).serialize =
        some (CountMinSketch.mk0 2 2 5 7)) :=
  ⟨⟨by decide, serialize_roundtrip_bitexact.1 _ (by decide)⟩,
   ⟨by decide, serialize_roundtrip_bitexact.2 _ (by decide)⟩⟩

/-! ## Count-Min sketch: no underestimation (C3) -/

theorem getD_replicate' {α : Type} (n i : Nat) (a d : α) :
    (List.replicate n a).getD i d = if i < n then a else d := by
  induction n generalizing i with
  | zero => simp
  | succ n ih =>
      cases i with
      | zero => simp
      | succ j =>
          rw [List.replicate_succ, List.getD_cons_succ, ih]
          simp [Nat.succ_lt_succ_iff]

theorem length_listModify {α : Type} (l : List α) (n : Nat) (f : α → α) :
    (listModify l n f).length = l.length := by
  induction l generalizing n with
  | nil => rfl
  | cons a t ih =>
      cases n with
      | zero => rfl
      | succ m => simp [listModify, ih]

theorem getD_listModify {α : Type} (l : List α) (n i : Nat) (f : α → α) (d : α) :
    (listModify l n f).getD i d =
      if i = n ∧ n < l.length then f (l.getD i d) else l.getD i d := by
  induction l generalizing n i with
  | nil => simp [listModify]
  | cons a t ih =>
      cases n with
      | zero =>
          cases i with
          | zero => simp [listModify]
          | succ j => simp [listModify]
      | succ m =>
          cases i with
          | zero => simp [listModify]
          | succ j =>
              simp only [listModify, List.getD_cons_succ, ih]
              by_cases hjm : j = m
              · subst hjm
                by_cases hlt : j < t.length
                · simp [hlt, Nat.succ_lt_succ_iff]
                · simp [hlt, Nat.succ_lt_succ_iff]
              · have h1 : ¬(j = m ∧ m < t.length) := fun hc => hjm hc.1
                have h2 : ¬(j + 1 = m + 1 ∧ m + 1 < t.length + 1) := fun hc => hjm (by omega)
                rw [if_neg h1, if_neg (by simpa using h2)]

theorem foldl_listModify_length {α : Type} (F : Nat → α → α) (n : Nat) (t : List α) :
    ((List.range n).foldl (fun tt j => listModify tt j (F j)) t).length = t.length := by
  induction n with
  | zero => rfl
  | succ n ih =>
      rw [List.range_succ, List.foldl_append]
      simp only [List.foldl_cons, List.foldl_nil]
      rw [length_listModify, ih]

theorem foldl_listModify_getD {α : Type} (F : Nat → α → α) (n : Nat) (t : List α)
    (i : Nat) (d : α) :
    ((List.range n).foldl (fun tt j => listModify tt j (F j)) t).getD i d =
      if i < n ∧ i < t.length then F i (t.getD i d) else t.getD i d := by
  induction n with
  | zero => simp
  | succ n ih =>
      rw [List.range_succ, List.foldl_append]
      simp only [List.foldl_cons, List.foldl_nil]
      rw [getD_listModify, foldl_listModify_length, ih]
      by_cases hin : i = n
      · subst hin
        have hinner : ¬(i < i ∧ i < t.length) := fun hc => Nat.lt_irrefl _ hc.1
        rw [if_neg hinner]
        by_cases hit : i < t.length
        · have hc1 : i = i ∧ i < t.length := ⟨rfl, hit⟩
          have hc2 : i < i + 1 ∧ i < t.length := ⟨Nat.lt_succ_self _, hit⟩
          rw [if_pos hc1, if_pos hc2]
        · rw [if_neg (fun hc => hit hc.2), if_neg (fun hc => hit hc.2)]
      · have h1 : ¬(i = n ∧ n < t.length) := fun hc => hin hc.1
        rw [if_neg h1]
        have h2 : (i < n + 1 ∧ i < t.length) ↔ (i < n ∧ i < t.length) := by
          constructor
          · rintro ⟨ha, hb⟩; exact ⟨by omega, hb⟩
          · rintro ⟨ha, hb⟩; exact ⟨by omega, hb⟩
        by_cases h3 : i < n ∧ i < t.length
        · rw [if_pos h3, if_pos (h2.mpr h3)]
        · rw [if_neg h3, if_neg (fun hc => h3 (h2.mp hc))]

theorem add_w (hash : List Nat → Nat → Nat) (c : CountMinSketch) (key : List Nat) (cnt : Int) :
    (c.add hash key cnt).w = c.w := rfl

theorem add_d (hash : List Nat → Nat → Nat) (c : CountMinSketch) (key : List Nat) (cnt : Int) :
    (c.add hash key cnt).d = c.d := rfl

/-- One `add` call: preserves the table dimensions, adds exactly `cnt`
to the key's own counters, and never decreases any counter when
`cnt ≥ 0`. -/
theorem cell_add_ge (hash : List Nat → Nat → Nat) (c : CountMinSketch)
    (key' : List Nat) (cnt : Int) (key : List Nat) (i : Nat)
    (hw : 0 < c.w) (hdims : c.Dims) (hi : i < c.d) (hcnt : 0 ≤ cnt) :
    c.cell hash key i + (if key' = key then cnt else 0) ≤ (c.add hash key' cnt).cell hash key i ∧
      (c.add hash key' cnt).Dims := by
  obtain ⟨hlen, hrow⟩ := hdims
  have htab : (c.add hash key' cnt).table =
      (List.range c.d).foldl
        (fun tt j => listModify tt j (fun row => listModify row (hash key' j % c.w) (· + cnt)))
        c.table := rfl
  constructor
  · simp only [CountMinSketch.cell, add_w, htab]
    rw [foldl_listModify_getD]
    have hc1 : i < c.d ∧ i < c.table.length := ⟨hi, by omega⟩
    rw [if_pos hc1, getD_listModify]
    by_cases hk : key' = key
    · subst hk
      have hc2 : hash key' i % c.w = hash key' i % c.w ∧
          hash key' i % c.w < (c.table.getD i []).length :=
        ⟨rfl, by rw [hrow i hi]; exact Nat.mod_lt _ hw⟩
      rw [if_pos hc2]
      have hc3 : (if key' = key' then cnt else 0) = cnt := if_pos rfl
      rw [hc3]
    · have hc4 : (if key' = key then cnt else 0) = 0 := if_neg hk
      rw [hc4]
      split
      · omega
      · omega
  · refine ⟨?_, ?_⟩
    · show (c.add hash key' cnt).table.length = (c.add hash key' cnt).d
      rw [htab, foldl_listModify_length, hlen, add_d]
    · intro j hj
      rw [add_d] at hj
      show ((c.add hash key' cnt).table.getD j []).length = (c.add hash key' cnt).w
      rw [htab, foldl_listModify_getD]
      have hc5 : j < c.d ∧ j < c.table.length := ⟨hj, by omega⟩
      rw [if_pos hc5, length_listModify, add_w]
      exact hrow j hj

theorem trueCount_cons (key : List Nat) (p : List Nat × Int) (ops : List (List Nat × Int)) :
    trueCount key (p :: ops) = (if p.1 = key then p.2 else 0) + trueCount key ops := by
  simp only [trueCount, List.filter_cons]
  by_cases hk : p.1 = key
  · simp [hk]
  · simp [hk]

theorem addAll_cons (hash : List Nat → Nat → Nat) (c : CountMinSketch)
    (p : List Nat × Int) (ops : List (List Nat × Int)) :
    c.addAll hash (p :: ops) = (c.add hash p.1 p.2).addAll hash ops := rfl

/-- Accumulated effect of a whole `add` sequence on a single counter. -/
theorem cell_addAll_ge (hash : List Nat → Nat → Nat) (ops : List (List Nat × Int))
    (c : CountMinSketch) (key : List Nat) (i : Nat)
    (hw : 0 < c.w) (hdims : c.Dims) (hi : i < c.d)
    (hnn : ∀ p ∈ ops, 0 ≤ p.2) :
    c.cell hash key i + trueCount key ops ≤ (c.addAll hash ops).cell hash key i ∧
      (c.addAll hash ops).Dims ∧ (c.addAll hash ops).w = c.w ∧ (c.addAll hash ops).d = c.d := by
  induction ops generalizing c with
  | nil => exact ⟨by simp [CountMinSketch.addAll, trueCount], hdims, rfl, rfl⟩
  | cons p rest ih =>
      have hp := hnn p (List.mem_cons_self _ _)
      obtain ⟨hstep, hdims'⟩ := cell_add_ge hash c p.1 p.2 key i hw hdims hi hp
      have hw' : 0 < (c.add hash p.1 p.2).w := by rw [add_w]; exact hw
      have hi' : i < (c.add hash p.1 p.2).d := by rw [add_d]; exact hi
      obtain ⟨hcell, hdims'', hww, hdd⟩ :=
        ih (c.add hash p.1 p.2) hw' hdims' hi' (fun q hq => hnn q (List.mem_cons_of_mem _ hq))
      rw [addAll_cons, trueCount_cons]
      refine ⟨?_, hdims'', by rw [hww, add_w], by rw [hdd, add_d]⟩
      omega

theorem foldl_min_ge (B : Int) (x : Int) (xs : List Int)
    (hx : B ≤ x) (hxs : ∀ y ∈ xs, B ≤ y) : B ≤ xs.foldl min x := by
  induction xs generalizing x with
  | nil => exact hx
  | cons y ys ih =>
      simp only [List.foldl_cons]
      exact ih _ (le_min hx (hxs y (List.mem_cons_self _ _)))
        (fun z hz => hxs z (List.mem_cons_of_mem _ hz))

/-- C3: a Count-Min sketch freshly constructed with positive width and
depth, then fed any finite sequence of `add(key, count)` calls with
non-negative counts, never underestimates: `estimate(key)` succeeds and
is at least the total count added for `key`. -/
theorem cms_estimate_no_underestimate (hash : List Nat → Nat → Nat) (w d eb db : Nat)
    (hw : 0 < w) (hd : 0 < d) (ops : List (List Nat × Int))
    (hnn : ∀ p ∈ ops, 0 ≤ p.2) (key : List Nat) :
    ∃ v, ((CountMinSketch.mk0 w d eb db).addAll hash ops).estimate hash key = some v ∧
      trueCount key ops ≤ v := by
  have hdims : (CountMinSketch.mk0 w d eb db).Dims := by
    refine ⟨by simp [CountMinSketch.mk0], ?_⟩
    intro i hi
    simp only [CountMinSketch.mk0] at hi ⊢
    rw [getD_replicate']
    simp [hi]
  have hcell0 : ∀ i, (CountMinSketch.mk0 w d eb db).cell hash key i = 0 := by
    intro i
    simp only [CountMinSketch.cell, CountMinSketch.mk0]
    rw [getD_replicate']
    by_cases hi : i < d
    · rw [if_pos hi, getD_replicate']
      split <;> rfl
    · rw [if_neg hi]
      simp
  set cfin := (CountMinSketch.mk0 w d eb db).addAll hash ops with hcfin
  have hbound : ∀ i, i < d → trueCount key ops ≤ cfin.cell hash key i := by
    intro i hi
    have := cell_addAll_ge hash ops (CountMinSketch.mk0 w d eb db) key i hw hdims hi hnn
    rw [hcell0 i] at this
    simpa using this.1
  have hdd : cfin.d = d :=
    (cell_addAll_ge hash ops (CountMinSketch.mk0 w d eb db) key 0 hw hdims hd hnn).2.2.2
  obtain ⟨j, js, hjs⟩ :
      ∃ j js, (List.range cfin.d).map
        (fun i => (cfin.table.getD i []).getD (hash key i % cfin.w) 0) = j :: js := by
    cases hmap : (List.range cfin.d).map
        (fun i => (cfin.table.getD i []).getD (hash key i % cfin.w) 0) with
    | nil =>
        exfalso
        have : cfin.d = 0 := by
          have := congrArg List.length hmap
          simpa using this
        omega
    | cons j js => exact ⟨j, js, rfl⟩
  have hmem : ∀ x ∈ j :: js, trueCount key ops ≤ x := by
    intro x hx
    rw [← hjs] at hx
    obtain ⟨i, hi, hix⟩ := List.mem_map.mp hx
    have hid : i < d := by
      have := List.mem_range.mp hi
      omega
    have := hbound i hid
    simp only [CountMinSketch.cell] at this
    omega
  refine ⟨js.foldl min j, ?_, ?_⟩
  · simp only [CountMinSketch.estimate, hjs]
  · exact foldl_min_ge _ _ _ (hmem j (List.mem_cons_self _ _))
      (fun y hy => hmem y (List.mem_cons_of_mem _ hy))

/-- Witness for C3: two keys, counts 5 and 3, width 3, depth 2, with a
concrete hash function. -/
theorem cms_estimate_no_underestimate_witness :
    (0 < 3 ∧ 0 < 2 ∧ (∀ p ∈ [([7], (5 : Int)), ([9], 3), ([7], 2)], 0 ≤ p.2)) ∧
    (∃ v, ((CountMinSketch.mk0 3 2 1 1).addAll (fun k i => k.foldl (· + ·) i)
        [([7], (5 : Int)), ([9], 3), ([7], 2)]).estimate (fun k i => k.foldl (· + ·) i)
        [7] = some v ∧
      trueCount [7] [([7], (5 : Int)), ([9], 3), ([7], 2)] ≤ v) :=
  ⟨⟨by decide, by decide, by decide⟩,
    cms_estimate_no_underestimate (fun k i => k.foldl (· + ·) i) 3 2 1 1
      (by decide) (by decide) _ (by decide) [7]⟩

/-! ## Executor scaling frame effect (C7) -/

theorem scaleRowStep_ne (scale : ℚ) (row : Row) (col c : String) (hne : c ≠ col) :
    scaleRowStep scale row col c = row c := by
  cases hrc : row col with
  | none => simp [scaleRowStep, hrc]
  | some v =>
      by_cases hcond : (needsScaling col && v.isNumeric) = true
      · simp [scaleRowStep, hrc, hcond, hne]
      · simp only [Bool.not_eq_true] at hcond
        simp [scaleRowStep, hrc, hcond]

theorem scaleRowStep_self (scale : ℚ) (row : Row) (col : String) :
    scaleRowStep scale row col col =
      (row col).map (fun v => if needsScaling col && v.isNumeric then scaleValue scale v else v) := by
  cases hrc : row col with
  | none => simp [scaleRowStep, hrc]
  | some v =>
      by_cases hcond : (needsScaling col && v.isNumeric) = true
      · have hc1 := Bool.and_eq_true _ _ |>.mp hcond
        simp [scaleRowStep, hrc, hcond, hc1.1, hc1.2]
      · simp only [Bool.not_eq_true] at hcond
        have hc2 : ¬(needsScaling col = true ∧ v.isNumeric = true) := by
          rw [← Bool.and_eq_true, hcond]; simp
        simp [scaleRowStep, hrc, hcond, hc2]

theorem scaleRow_not_mem (scale : ℚ) (columns : List String) (row : Row) (c : String)
    (hc : c ∉ columns) : scaleRow scale columns row c = row c := by
  induction columns generalizing row with
  | nil => rfl
  | cons col rest ih =>
      have hne : c ≠ col := fun h => hc (h ▸ List.mem_cons_self _ _)
      have hrest : c ∉ rest := fun h => hc (List.mem_cons_of_mem _ h)
      simp only [scaleRow, List.foldl_cons]
      rw [show (List.foldl (scaleRowStep scale) (scaleRowStep scale row col) rest) =
        scaleRow scale rest (scaleRowStep scale row col) from rfl]
      rw [ih _ hrest, scaleRowStep_ne scale row col c hne]

theorem scaleRow_spec (scale : ℚ) (columns : List String) (row : Row) (c : String)
    (hnodup : columns.Nodup) :
    (needsScaling c = true → c ∈ columns →
      scaleRow scale columns row c =
        (row c).map (fun v => if v.isNumeric then scaleValue scale v else v)) ∧
    ((needsScaling c = false ∨ c ∉ columns) → scaleRow scale columns row c = row c) := by
  induction columns generalizing row with
  | nil =>
      refine ⟨fun _ hmem => absurd hmem (List.not_mem_nil c), fun _ => rfl⟩
  | cons col rest ih =>
      have hnd := List.nodup_cons.mp hnodup
      by_cases hceq : c = col
      · subst hceq
        have hnotrest : c ∉ rest := hnd.1
        constructor
        · intro hns _
          simp only [scaleRow, List.foldl_cons]
          rw [show List.foldl (scaleRowStep scale) (scaleRowStep scale row c) rest =
            scaleRow scale rest (scaleRowStep scale row c) from rfl]
          rw [scaleRow_not_mem scale rest _ c hnotrest, scaleRowStep_self, hns]
          simp
        · intro hns
          rcases hns with hns | hns
          · simp only [scaleRow, List.foldl_cons]
            rw [show List.foldl (scaleRowStep scale) (scaleRowStep scale row c) rest =
              scaleRow scale rest (scaleRowStep scale row c) from rfl]
            rw [scaleRow_not_mem scale rest _ c hnotrest, scaleRowStep_self, hns]
            cases row c <;> simp
          · exact absurd (List.mem_cons_self _ _) hns
      · have hstep : scaleRowStep scale row col c = row c := scaleRowStep_ne _ _ _ _ hceq
        have ihs := ih (scaleRowStep scale row col) hnd.2
        constructor
        · intro hns hmem
          rcases List.mem_cons.mp hmem with h | h
          · exact absurd h hceq
          · simp only [scaleRow, List.foldl_cons]
            rw [show List.foldl (scaleRowStep scale) (scaleRowStep scale row col) rest =
              scaleRow scale rest (scaleRowStep scale row col) from rfl]
            rw [ihs.1 hns h, hstep]
        · intro hns
          have hns' : needsScaling c = false ∨ c ∉ rest := by
            rcases hns with h | h
            · exact Or.inl h
            · exact Or.inr (fun hr => h (List.mem_cons_of_mem _ hr))
          simp only [scaleRow, List.foldl_cons]
          rw [show List.foldl (scaleRowStep scale) (scaleRowStep scale row col) rest =
            scaleRow scale rest (scaleRowStep scale row col) from rfl]
          rw [ihs.2 hns', hstep]

/-- C7 (amended with distinct column names): when `_scale_sample_results`
runs with fraction `f > 0`, the result is a per-row rewrite in which
exactly the columns whose uppercased name contains one of COUNT, SUM,
TOTAL, REVENUE, ORDERS have their numeric values multiplied by `1/f`;
every other column (and every non-numeric value) is left unchanged. -/
theorem scale_sample_results_frame (results : List Row) (f : ℚ) (columns : List String)
    (hf : 0 < f) (hnodup : columns.Nodup) :
    scale_sample_results results f columns = results.map (scaleRow (1 / f) columns) ∧
    ∀ row : Row, ∀ c : String,
      (needsScaling c = true → c ∈ columns →
        scaleRow (1 / f) columns row c =
          (row c).map (fun v => if v.isNumeric then scaleValue (1 / f) v else v)) ∧
      ((needsScaling c = false ∨ c ∉ columns) → scaleRow (1 / f) columns row c = row c) := by
  constructor
  · unfold scale_sample_results
    by_cases he : results.isEmpty
    · rw [if_pos (Or.inr he)]
      cases results with
      | nil => rfl
      | cons r rs => simp [List.isEmpty] at he
    · rw [if_neg (by push_neg; exact ⟨hf, he⟩)]
  · intro row c
    exact scaleRow_spec (1 / f) columns row c hnodup

/-- Counterexample to C7 as literally stated: a result set with a
duplicated aggregate column name has its single dict entry scaled once
per occurrence of the column, i.e. multiplied by `1/f` twice — 40
instead of the claimed `10 · (1/f) = 20` for value 10, `f = 1/2`. -/
theorem scale_sample_results_dup_counterexample :
    ((scale_sample_results [fun c => if c = "sum_x" then some (Value.intV 10) else none]
        ((1 : ℚ) / 2) ["sum_x", "sum_x"]).getD 0 (fun _ => none)) "sum_x" =
      some (Value.floatV 40) ∧
    ¬ ((40 : ℚ) = 10 * (1 / ((1 : ℚ) / 2))) := by
  constructor
  · rw [scale_sample_results, if_neg (by push_neg; exact ⟨by norm_num, by simp⟩)]
    simp only [List.map_cons, List.map_nil, List.getD_cons_zero]
    simp only [scaleRow, List.foldl_cons, List.foldl_nil]
    rw [scaleRowStep_self, scaleRowStep_self]
    have hrow : (if ("sum_x" : String) = "sum_x" then some (Value.intV 10) else none) =
        some (Value.intV 10) := by simp
    rw [hrow]
    have hns : needsScaling "sum_x" = true := by decide
    simp only [Option.map_some, hns, Value.isNumeric, Bool.and_self, if_true, scaleValue,
      Bool.true_and, Option.some.injEq, Value.floatV.injEq]
    norm_num
  · norm_num

/-- Witness for C7 (amended) at a concrete fraction and column list. -/
theorem scale_sample_results_frame_witness :
    (0 < (1 : ℚ) / 2) ∧ (["total_x", "name"] : List String).Nodup ∧
    (scale_sample_results [fun _ => none] ((1 : ℚ) / 2) ["total_x", "name"] =
        [fun _ => (none : Option Value)].map (scaleRow (1 / ((1 : ℚ) / 2)) ["total_x", "name"]) ∧
      ∀ row : Row, ∀ c : String,
        (needsScaling c = true → c ∈ ["total_x", "name"] →
          scaleRow (1 / ((1 : ℚ) / 2)) ["total_x", "name"] row c =
            (row c).map (fun v => if v.isNumeric then scaleValue (1 / ((1 : ℚ) / 2)) v else v)) ∧
        ((needsScaling c = false ∨ c ∉ ["total_x", "name"]) →
          scaleRow (1 / ((1 : ℚ) / 2)) ["total_x", "name"] row c = row c)) :=
  ⟨by norm_num, by decide, scale_sample_results_frame _ _ _ (by norm_num) (by decide)⟩

/-! ## Sampler fraction validation (C8) -/

/-- C8: both sample-creation operations raise `ValueError` exactly when
the fraction is outside `(0,1)`, and in the error case no SQL statement
has been issued (the trace is empty), so the database is unchanged. -/
theorem create_sample_invalid_fraction :
    (∀ (db : SamplerDb) (table : String) (f : ℚ),
      (isErr (create_uniform_sample db table f).2 = true ↔ (f ≤ 0 ∨ 1 ≤ f)) ∧
      ((f ≤ 0 ∨ 1 ≤ f) → (create_uniform_sample db table f).1 = [])) ∧
    (∀ (db : SamplerDb) (sqrtA : ℚ → ℚ) (table col : String) (f : ℚ) (vc : Option String),
      (isErr (create_stratified_sample db sqrtA table col f vc).2 = true ↔ (f ≤ 0 ∨ 1 ≤ f)) ∧
      ((f ≤ 0 ∨ 1 ≤ f) → (create_stratified_sample db sqrtA table col f vc).1 = [])) := by
  constructor
  · intro db table f
    by_cases hf : f ≤ 0 ∨ f ≥ 1
    · exact ⟨by simp [create_uniform_sample, hf, isErr],
        fun _ => by simp [create_uniform_sample, hf]⟩
    · exact ⟨by simp [create_uniform_sample, hf, isErr], fun hc => absurd hc hf⟩
  · intro db sqrtA table col f vc
    by_cases hf : f ≤ 0 ∨ f ≥ 1
    · exact ⟨by simp [create_stratified_sample, hf, isErr],
        fun _ => by simp [create_stratified_sample, hf]⟩
    · exact ⟨by simp [create_stratified_sample, hf, isErr], fun hc => absurd hc hf⟩

/-- Witness for C8 at `f = 2` (uniform) and `f = -1` (stratified). -/
theorem create_sample_invalid_fraction_witness :
    (((2 : ℚ) ≤ 0 ∨ 1 ≤ (2 : ℚ)) ∧
      (create_uniform_sample ⟨fun _ => 0, fun _ _ _ => [], fun _ _ => []⟩ "t" 2).1 = []) ∧
    ((((-1) : ℚ) ≤ 0 ∨ 1 ≤ ((-1) : ℚ)) ∧
      (create_stratified_sample ⟨fun _ => 0, fun _ _ _ => [], fun _ _ => []⟩ (fun q => q) "t" "c"
        (-1) none).1 = []) :=
  ⟨⟨Or.inr (by norm_num), (create_sample_invalid_fraction.1 _ "t" 2).2 (Or.inr (by norm_num))⟩,
   ⟨Or.inl (by norm_num), (create_sample_invalid_fraction.2 _ (fun q => q) "t" "c" (-1) none).2
      (Or.inl (by norm_num))⟩⟩

/-! ## Stratified reconciliation (C4) -/

/-- C4 (code bug): with one stratum of population 10 and target
fraction 1/2, a materialization that drew zero rows leaves the recount
empty; the reconcile step then keeps the stale target `sample_size = 5`
instead of the achieved 0, so the recorded sizes sum to 5 while the
materialized sample has 0 rows. -/
theorem stratified_reconcile_zero_rows_bug :
    ((update_actual_sample_sizes
        (allocate_proportional
          [{ strata_key := "city", strata_value := "a", pop_size := 10, mean_val := 0,
             variance := 0, sample_size := 0, fraction := 0, weight := 0 }] (1 / 2))
        []).map (fun s => s.sample_size)).sum = 5 ∧
    (([] : List (String × Nat)).map (fun p => p.2)).sum = 0 ∧ (5 : Nat) ≠ 0 := by
  refine ⟨?_, rfl, by norm_num⟩
  simp only [allocate_proportional, update_actual_sample_sizes, List.map_cons, List.map_nil,
    List.lookup, List.sum_cons, List.sum_nil]
  norm_num
  rfl

/-! ## Planner error budget (C1) -/

theorem foldl_minCost_mem (v0 : Plan) (vrest : List Plan) :
    vrest.foldl (fun best s => if planCost s < planCost best then s else best) v0 ∈ v0 :: vrest := by
  induction vrest generalizing v0 with
  | nil => exact List.mem_cons_self _ _
  | cons s t ih =>
      simp only [List.foldl_cons]
      by_cases hc : planCost s < planCost v0
      · rw [if_pos hc]
        rcases List.mem_cons.mp (ih s) with h1 | h1
        · rw [h1]; exact List.mem_cons_of_mem _ (List.mem_cons_self _ _)
        · exact List.mem_cons_of_mem _ (List.mem_cons_of_mem _ h1)
      · rw [if_neg hc]
        rcases List.mem_cons.mp (ih v0) with h1 | h1
        · rw [h1]; exact List.mem_cons_self _ _
        · exact List.mem_cons_of_mem _ (List.mem_cons_of_mem _ h1)

theorem choose_best_of_filter_nil (s0 : Plan) (rest : List Plan) (ε : ℚ)
    (hf : (s0 :: rest).filter (fun s => s.estimatedError.getD 0 ≤ ε) = []) :
    choose_best_strategy (s0 :: rest) ε = s0 := by
  simp only [choose_best_strategy]
  rw [hf]

theorem choose_best_mem_filter (s0 : Plan) (rest : List Plan) (ε : ℚ) (v0 : Plan)
    (vrest : List Plan)
    (hf : (s0 :: rest).filter (fun s => s.estimatedError.getD 0 ≤ ε) = v0 :: vrest) :
    choose_best_strategy (s0 :: rest) ε ∈
      (s0 :: rest).filter (fun s => s.estimatedError.getD 0 ≤ ε) := by
  simp only [choose_best_strategy]
  rw [hf]
  exact foldl_minCost_mem v0 vrest

theorem choose_best_error_or_head (s0 : Plan) (rest : List Plan) (ε : ℚ) :
    (choose_best_strategy (s0 :: rest) ε).estimatedError.getD 0 ≤ ε ∨
      choose_best_strategy (s0 :: rest) ε = s0 := by
  cases hf : (s0 :: rest).filter (fun s => s.estimatedError.getD 0 ≤ ε) with
  | nil => exact Or.inr (choose_best_of_filter_nil s0 rest ε hf)
  | cons v0 vrest =>
      left
      have hmem := choose_best_mem_filter _ _ _ _ _ hf
      exact of_decide_eq_true (List.mem_filter.mp hmem).2

theorem evaluate_strategies_head (db : PlannerDb) (sqrtA : ℚ → ℚ) (sql table : String)
    (hasGB : Bool) (stats : TableStats) :
    ∃ tail, evaluate_strategies db sqrtA sql table hasGB stats =
      { ptype := "exact", sql := sql, originalSql := sql, table := some table,
        sampleTable := none, sampleFraction := none,
        estimatedCost := some (estimate_exact_cost hasGB stats.row_count),
        estimatedError := some 0, reason := "exact execution" } :: tail := by
  unfold evaluate_strategies
  split
  · cases evaluate_sample_strategy db sqrtA sql table stats with
    | none => exact ⟨[], rfl⟩
    | some p => exact ⟨[p], rfl⟩
  · exact ⟨[], rfl⟩

/-- C1: every plan returned by `Planner.plan` with a non-negative error
budget either has `estimated_error ≤ max_rel_error` (an absent
`estimated_error`, as on the direct-on-sample path, counting as 0 — the
code's own `s.get("estimated_error", 0)` convention) or is an exact
plan; moreover the candidate-selection step only ever picks a candidate
that survives the error filter and falls back to the first (exact)
strategy when none survives. -/
theorem plan_error_within_budget (db : PlannerDb) (sqrtA : ℚ → ℚ) (sql : String) (ε : ℚ)
    (prefer_exact : Bool) (hε : 0 ≤ ε) :
    ((Planner.plan db sqrtA sql ε prefer_exact).estimatedError.getD 0 ≤ ε ∨
      (Planner.plan db sqrtA sql ε prefer_exact).ptype = "exact") ∧
    (∀ s0 : Plan, ∀ rest : List Plan,
      ((s0 :: rest).filter (fun s => s.estimatedError.getD 0 ≤ ε) = [] →
        choose_best_strategy (s0 :: rest) ε = s0) ∧
      (∀ v0 vrest, (s0 :: rest).filter (fun s => s.estimatedError.getD 0 ≤ ε) = v0 :: vrest →
        (choose_best_strategy (s0 :: rest) ε).estimatedError.getD 0 ≤ ε)) := by
  constructor
  · cases hext : extract_table_name sql with
    | none =>
        right
        simp only [Planner.plan, hext]
    | some table =>
        simp only [Planner.plan, hext]
        by_cases hsamp : (parse_sample_table_name table).2.2
        · rw [if_pos hsamp]
          left
          simpa using hε
        · rw [if_neg hsamp]
          by_cases hpe : prefer_exact
          · rw [if_pos hpe]
            right
            rfl
          · rw [if_neg hpe]
            cases hstats : get_table_stats db table with
            | none => right; rfl
            | some stats =>
                obtain ⟨tail, htail⟩ :=
                  evaluate_strategies_head db sqrtA sql table (has_group_by sql) stats
                change (choose_best_strategy
                    (evaluate_strategies db sqrtA sql table (has_group_by sql) stats)
                    ε).estimatedError.getD 0 ≤ ε ∨
                  (choose_best_strategy
                    (evaluate_strategies db sqrtA sql table (has_group_by sql) stats)
                    ε).ptype = "exact"
                rw [htail]
                rcases choose_best_error_or_head _ tail ε with h | h
                · exact Or.inl h
                · right
                  rw [h]
  · intro s0 rest
    refine ⟨choose_best_of_filter_nil s0 rest ε, ?_⟩
    intro v0 vrest hf
    have hmem := choose_best_mem_filter _ _ _ _ _ hf
    have := (List.mem_filter.mp hmem).2
    exact of_decide_eq_true this

/-- Witness for C1 at a concrete oracle, query and budget. -/
theorem plan_error_within_budget_witness :
    (0 ≤ (1 : ℚ) / 10) ∧
    (((Planner.plan ⟨fun _ => false, fun _ => some 100, fun _ => 0, fun _ => some [],
        fun _ => some none, fun _ => true⟩ (fun q => q) "SELECT COUNT(*) FROM t" ((1 : ℚ) / 10)
        false).estimatedError.getD 0 ≤ (1 : ℚ) / 10 ∨
      (Planner.plan ⟨fun _ => false, fun _ => some 100, fun _ => 0, fun _ => some [],
        fun _ => some none, fun _ => true⟩ (fun q => q) "SELECT COUNT(*) FROM t" ((1 : ℚ) / 10)
        false).ptype = "exact") ∧
    (∀ s0 : Plan, ∀ rest : List Plan,
      ((s0 :: rest).filter (fun s => s.estimatedError.getD 0 ≤ (1 : ℚ) / 10) = [] →
        choose_best_strategy (s0 :: rest) ((1 : ℚ) / 10) = s0) ∧
      (∀ v0 vrest,
        (s0 :: rest).filter (fun s => s.estimatedError.getD 0 ≤ (1 : ℚ) / 10) = v0 :: vrest →
        (choose_best_strategy (s0 :: rest) ((1 : ℚ) / 10)).estimatedError.getD 0 ≤
          (1 : ℚ) / 10))) :=
  ⟨by norm_num,
   plan_error_within_budget ⟨fun _ => false, fun _ => some 100, fun _ => 0, fun _ => some [],
     fun _ => some none, fun _ => true⟩ (fun q => q) "SELECT COUNT(*) FROM t" ((1 : ℚ) / 10)
     false (by norm_num)⟩

/-! ## MLOptimizer learning override (C6) -/

theorem learnFold_spec (ε : ℚ) (gs : List StratGroup) (s : ℚ × String × ℚ) :
    ((∀ g ∈ gs, ¬(qualifies ε g ∧ s.1 < groupScore g)) ∧
      gs.foldl (chooseLearnFold ε) s = s) ∨
    (∃ g ∈ gs, qualifies ε g ∧ s.1 < groupScore g ∧
      gs.foldl (chooseLearnFold ε) s = (groupScore g, g.strategy, learnConfidence g) ∧
      ∀ g' ∈ gs, qualifies ε g' → groupScore g' ≤ groupScore g) := by
  induction gs generalizing s with
  | nil => exact Or.inl ⟨fun g hg => absurd hg (List.not_mem_nil g), rfl⟩
  | cons h t ih =>
      by_cases hacc : qualifies ε h ∧ s.1 < groupScore h
      · have hstep : chooseLearnFold ε s h = (groupScore h, h.strategy, learnConfidence h) := by
          unfold chooseLearnFold
          rw [if_pos hacc.1.1, if_pos ⟨hacc.2, hacc.1.2⟩]
        rcases ih (groupScore h, h.strategy, learnConfidence h) with ⟨hall, hfold⟩ | hex
        · right
          refine ⟨h, List.mem_cons_self _ _, hacc.1, hacc.2, ?_, ?_⟩
          · simp only [List.foldl_cons, hstep, hfold]
          · intro g' hg' hq'
            rcases List.mem_cons.mp hg' with h1 | h1
            · rw [h1]
            · by_contra hlt
              push_neg at hlt
              exact hall g' h1 ⟨hq', hlt⟩
        · obtain ⟨g, hgmem, hgq, hglt, hgfold, hgmax⟩ := hex
          right
          refine ⟨g, List.mem_cons_of_mem _ hgmem, hgq, lt_trans hacc.2 hglt, ?_, ?_⟩
          · simp only [List.foldl_cons, hstep, hgfold]
          · intro g' hg' hq'
            rcases List.mem_cons.mp hg' with h1 | h1
            · rw [h1]; exact le_of_lt hglt
            · exact hgmax g' h1 hq'
      · have hstep : chooseLearnFold ε s h = s := by
          unfold chooseLearnFold
          by_cases hcnt : 0 < h.count
          · rw [if_pos hcnt, if_neg]
            intro hc
            exact hacc ⟨⟨hcnt, hc.2⟩, hc.1⟩
          · rw [if_neg hcnt]
        rcases ih s with ⟨hall, hfold⟩ | hex
        · left
          refine ⟨?_, by simp only [List.foldl_cons, hstep, hfold]⟩
          intro g hg
          rcases List.mem_cons.mp hg with h1 | h1
          · rw [h1]; exact hacc
          · exact hall g h1
        · obtain ⟨g, hgmem, hgq, hglt, hgfold, hgmax⟩ := hex
          right
          refine ⟨g, List.mem_cons_of_mem _ hgmem, hgq, hglt,
            by simp only [List.foldl_cons, hstep, hgfold], ?_⟩
          intro g' hg' hq'
          rcases List.mem_cons.mp hg' with h1 | h1
          · subst h1
            by_contra hlt
            push_neg at hlt
            have : s.1 < groupScore g' := lt_of_le_of_lt (le_of_lt hglt) hlt
            exact hacc ⟨hq', this⟩
          · exact hgmax g' h1 hq'

/-- C6 (amended): when history rows exist, the override replaces the
base strategy with the highest-scoring strategy among those whose
score `0.6·avg_speedup − 0.4·avg_error` is strictly positive and whose
`avg_error ≤ 1.2·ε` (first-encountered wins ties); if no group passes
both tests, the base strategy and confidence are returned unchanged.
When a replacement is chosen, the confidence is
`min(0.95, 0.6 + 0.3·(n/10)) = min(0.95, 0.6 + 0.03·n)`. -/
theorem choose_strategy_with_learning_spec (f : Features) (hist : List PerfRow)
    (hne : hist ≠ []) :
    ((∀ g ∈ groupStrategies hist,
        ¬(qualifies f.error_tolerance g ∧ 0 < groupScore g)) →
      choose_strategy_with_learning f hist = choose_base_strategy f) ∧
    (∀ g0 ∈ groupStrategies hist, qualifies f.error_tolerance g0 → 0 < groupScore g0 →
      ∃ g ∈ groupStrategies hist, qualifies f.error_tolerance g ∧ 0 < groupScore g ∧
        choose_strategy_with_learning f hist = (g.strategy, learnConfidence g) ∧
        ∀ g' ∈ groupStrategies hist, qualifies f.error_tolerance g' →
          groupScore g' ≤ groupScore g) := by
  have hemp : hist.isEmpty = false := by
    cases hist with
    | nil => exact absurd rfl hne
    | cons a t => rfl
  have hplan : choose_strategy_with_learning f hist =
      (let res := (groupStrategies hist).foldl (chooseLearnFold f.error_tolerance)
        (0, (choose_base_strategy f).1, (choose_base_strategy f).2)
       (res.2.1, res.2.2)) := by
    unfold choose_strategy_with_learning
    rw [hemp]
    simp
  constructor
  · intro hall
    rcases learnFold_spec f.error_tolerance (groupStrategies hist)
        (0, (choose_base_strategy f).1, (choose_base_strategy f).2) with ⟨_, hfold⟩ | hex
    · rw [hplan]
      simp only [hfold]
    · obtain ⟨g, hgmem, hgq, hglt, _, _⟩ := hex
      exact absurd ⟨hgq, hglt⟩ (hall g hgmem)
  · intro g0 hg0 hq0 hs0
    rcases learnFold_spec f.error_tolerance (groupStrategies hist)
        (0, (choose_base_strategy f).1, (choose_base_strategy f).2) with ⟨hall, _⟩ | hex
    · exact absurd ⟨hq0, hs0⟩ (hall g0 hg0)
    · obtain ⟨g, hgmem, hgq, hglt, hgfold, hgmax⟩ := hex
      refine ⟨g, hgmem, hgq, hglt, ?_, hgmax⟩
      rw [hplan]
      simp only [hgfold]

/-- Counterexample to C6 as literally stated: one history row for
`sketch` with speedup 0 and error 0 passes the error gate
(`avg_error = 0 ≤ 1.2·ε`) and is the (unique) highest-scoring
strategy, yet its score `0.6·0 − 0.4·0 = 0` is not strictly positive,
so the implicit `best_score = 0` threshold blocks the replacement: the
optimizer keeps the base strategy `exact` with confidence 0.95 instead
of returning (`sketch`, 0.63). -/
theorem learning_override_counterexample :
    choose_strategy_with_learning
        { table_size := 500, has_count := true, has_sum := false, has_avg := false,
          has_distinct := true, has_group_by := false, group_by_cardinality := 0,
          error_tolerance := 1 / 20 }
        [{ strategy := "sketch", actual_speedup := 0, actual_error := 0 }] =
      ("exact", 95 / 100) ∧
    groupStrategies [{ strategy := "sketch", actual_speedup := 0, actual_error := 0 }] =
      [{ strategy := "sketch", count := 1, sumSpeedup := 0, sumError := 0 }] ∧
    groupAvgError { strategy := "sketch", count := 1, sumSpeedup := 0, sumError := 0 } ≤
      ((1 : ℚ) / 20) * (12 / 10) ∧
    ("exact", (95 : ℚ) / 100).1 ≠ "sketch" := by
  refine ⟨?_, ?_, ?_, ?_⟩
  · unfold choose_strategy_with_learning
    simp only [List.isEmpty_cons, if_false, Bool.false_eq_true]
    unfold groupStrategies
    simp only [List.foldl_cons, List.foldl_nil]
    unfold groupAdd
    simp only [List.any_nil, Bool.false_eq_true, if_false, List.nil_append]
    unfold chooseLearnFold choose_base_strategy
    norm_num [groupScore, groupAvgError]
  · unfold groupStrategies
    simp only [List.foldl_cons, List.foldl_nil]
    unfold groupAdd
    simp only [List.any_nil, Bool.false_eq_true, if_false, List.nil_append]
  · unfold groupAvgError
    norm_num
  · simp

/-- Witness for C6 (amended) at a concrete query and history. -/
theorem choose_strategy_with_learning_witness :
    ([{ strategy := "sketch", actual_speedup := 5, actual_error := 0 }] : List PerfRow) ≠ [] ∧
    (∃ g ∈ groupStrategies [{ strategy := "sketch", actual_speedup := 5, actual_error := 0 }],
      qualifies ((1 : ℚ) / 20) g ∧ 0 < groupScore g ∧
      choose_strategy_with_learning
          { table_size := 500, has_count := true, has_sum := false, has_avg := false,
            has_distinct := true, has_group_by := false, group_by_cardinality := 0,
            error_tolerance := 1 / 20 }
          [{ strategy := "sketch", actual_speedup := 5, actual_error := 0 }] =
        (g.strategy, learnConfidence g) ∧
      ∀ g' ∈ groupStrategies [{ strategy := "sketch", actual_speedup := 5, actual_error := 0 }],
        qualifies ((1 : ℚ) / 20) g' → groupScore g' ≤ groupScore g) := by
  have hgr : groupStrategies [{ strategy := "sketch", actual_speedup := 5, actual_error := 0 }] =
      [{ strategy := "sketch", count := 1, sumSpeedup := 5, sumError := 0 }] := by
    unfold groupStrategies
    simp only [List.foldl_cons, List.foldl_nil]
    unfold groupAdd
    simp only [List.any_nil, Bool.false_eq_true, if_false, List.nil_append]
  refine ⟨by simp, ?_⟩
  refine (choose_strategy_with_learning_spec
      { table_size := 500, has_count := true, has_sum := false, has_avg := false,
        has_distinct := true, has_group_by := false, group_by_cardinality := 0,
        error_tolerance := 1 / 20 }
      [{ strategy := "sketch", actual_speedup := 5, actual_error := 0 }] (by simp)).2
    { strategy := "sketch", count := 1, sumSpeedup := 5, sumError := 0 }
    (by rw [hgr]; exact List.mem_cons_self _ _)
    ⟨by norm_num, by norm_num [groupAvgError]⟩
    (by norm_num [groupScore])

/-! ## Sample-name round trip (C5): digit-string lemmas -/

theorem digitVal_digitChar (d : Nat) (hd : d < 10) : digitVal (digitChar d) = d := by
  interval_cases d <;> decide

theorem digitChar_is_digit (d : Nat) (hd : d < 10) : isDigitChar (digitChar d) = true := by
  interval_cases d <;> decide

theorem digitChar_ne_dot (d : Nat) (hd : d < 10) : digitChar d ≠ '.' := by
  interval_cases d <;> decide

theorem digitChar_ne_underscore (d : Nat) (hd : d < 10) : digitChar d ≠ '_' := by
  interval_cases d <;> decide

theorem padDigits_chars (j n : Nat) :
    ∀ c ∈ padDigits j n, ∃ d, d < 10 ∧ c = digitChar d := by
  induction j generalizing n with
  | zero => intro c hc; exact absurd hc (List.not_mem_nil c)
  | succ j ih =>
      intro c hc
      simp only [padDigits] at hc
      rcases List.mem_append.mp hc with h | h
      · exact ih _ c h
      · rcases List.mem_singleton.mp h with rfl
        exact ⟨n % 10, Nat.mod_lt _ (by norm_num), rfl⟩

theorem length_padDigits (j n : Nat) : (padDigits j n).length = j := by
  induction j generalizing n with
  | zero => rfl
  | succ j ih => simp [padDigits, ih]

theorem digitsVal_append_one (l : List Char) (c : Char) :
    digitsVal (l ++ [c]) = 10 * digitsVal l + digitVal c := by
  simp [digitsVal, List.foldl_append]

theorem digitsVal_padDigits (j n : Nat) : digitsVal (padDigits j n) = n % 10 ^ j := by
  induction j generalizing n with
  | zero => simp [padDigits, digitsVal, Nat.mod_one]
  | succ j ih =>
      rw [padDigits, digitsVal_append_one, ih, digitVal_digitChar _ (Nat.mod_lt _ (by norm_num))]
      have h1 : (10 : Nat) ^ (j + 1) = 10 * 10 ^ j := by ring
      have h2 : n % (10 * 10 ^ j) = n % 10 + 10 * (n / 10 % 10 ^ j) := Nat.mod_mul
      rw [h1, h2]
      omega

theorem digitsVal_append_replicate_zero (l : List Char) (z : Nat) :
    digitsVal (l ++ List.replicate z '0') = digitsVal l * 10 ^ z := by
  induction z generalizing l with
  | zero => simp
  | succ z ih =>
      rw [List.replicate_succ, show l ++ '0' :: List.replicate z '0' =
        (l ++ ['0']) ++ List.replicate z '0' by simp, ih, digitsVal_append_one]
      have : digitVal '0' = 0 := rfl
      rw [this]
      ring

theorem digitsVal_replicate_zero (z : Nat) : digitsVal (List.replicate z '0') = 0 := by
  have := digitsVal_append_replicate_zero [] z
  simpa [digitsVal] using this

theorem dropWhile_append_of_ne_nil {α : Type} (p : α → Bool) (a b : List α)
    (h : a.dropWhile p ≠ []) : (a ++ b).dropWhile p = a.dropWhile p ++ b := by
  induction a with
  | nil => exact absurd rfl h
  | cons x xs ih =>
      by_cases hp : p x = true
      · rw [List.dropWhile_cons, if_pos hp] at h
        simp only [List.cons_append, List.dropWhile_cons, hp, if_true]
        exact ih h
      · simp only [List.cons_append, List.dropWhile_cons, hp, Bool.false_eq_true, if_false]

theorem head_dropWhile_false {α : Type} (p : α → Bool) (l : List α) (c : α) (rest : List α)
    (h : l.dropWhile p = c :: rest) : p c = false := by
  induction l with
  | nil => simp [List.dropWhile] at h
  | cons x xs ih =>
      rw [List.dropWhile_cons] at h
      by_cases hp : p x = true
      · rw [if_pos hp] at h
        exact ih h
      · rw [if_neg hp] at h
        cases h
        exact Bool.not_eq_true _ |>.mp hp

/-- Decomposition of `rstrip("0")`: the original list is the stripped
list followed by the stripped zeros, and the stripped list does not end
in `'0'`. -/
theorem rstripZeros_spec (l : List Char) :
    ∃ z, l = rstripZeros l ++ List.replicate z '0' ∧
      ∀ c, (rstripZeros l).getLast? = some c → ¬(c = '0') := by
  refine ⟨(l.reverse.takeWhile (fun c => c = '0')).length, ?_, ?_⟩
  · have hsplit := List.takeWhile_append_dropWhile (p := fun c => (c = '0' : Bool))
      (l := l.reverse)
    have htw : l.reverse.takeWhile (fun c => c = '0') =
        List.replicate (l.reverse.takeWhile (fun c => c = '0')).length '0' :=
      List.eq_replicate_of_mem (fun b hb => by
        have := List.mem_takeWhile_imp hb
        exact of_decide_eq_true this)
    have hrepl : (l.reverse.takeWhile (fun c => c = '0')).reverse =
        List.replicate (l.reverse.takeWhile (fun c => c = '0')).length '0' := by
      rw [htw]
      simp
    conv_lhs => rw [← List.reverse_reverse l, ← hsplit]
    rw [List.reverse_append, hrepl]
    rfl
  · intro c hc
    unfold rstripZeros at hc
    rw [List.getLast?_reverse] at hc
    cases hd : l.reverse.dropWhile (fun x => x = '0') with
    | nil => rw [hd] at hc; cases hc
    | cons y ys =>
        rw [hd] at hc
        simp only [List.head?_cons, Option.some.injEq] at hc
        subst hc
        have := head_dropWhile_false _ _ _ _ hd
        exact fun hcc => by simp [hcc] at this

theorem rstripZeros_ne_nil_of_val (l : List Char) (hv : digitsVal l ≠ 0) :
    rstripZeros l ≠ [] := by
  intro hnil
  obtain ⟨z, hdec, _⟩ := rstripZeros_spec l
  rw [hnil, List.nil_append] at hdec
  rw [hdec, digitsVal_replicate_zero] at hv
  exact hv rfl

theorem rndHalfEven_natCast (k : ℕ) : rndHalfEven (k : ℚ) = k := by
  unfold rndHalfEven
  rw [Int.floor_natCast]
  norm_num

/-- Evaluation of the sampler's `_fraction_name` on an exact decimal
`k/10^exp` (`exp = 3` in the main branch, `exp = 6` below `0.001`):
the result is `0_` followed by the `exp` zero-padded digits of `k`
with trailing zeros stripped. -/
theorem fraction_name_eval (k exp : ℕ) (hk1 : 1 ≤ k) (hk2 : k ≤ 999)
    (hexp : exp = 3 ∨ exp = 6) :
    fraction_name ((k : ℚ) / 10 ^ exp) =
      String.mk ('0' :: '_' :: rstripZeros (padDigits exp k)) := by
  have hkpos : (0 : ℚ) < (k : ℚ) := by exact_mod_cast hk1
  have hkle : (k : ℚ) ≤ 999 := by exact_mod_cast hk2
  have hfpos : (0 : ℚ) < (k : ℚ) / 10 ^ exp := by positivity
  have hklt : k < 10 ^ exp := by
    rcases hexp with h | h <;> subst h <;> omega
  have hk1q : (1 : ℚ) ≤ (k : ℚ) := by exact_mod_cast hk1
  have hfmt : fmtFixed ((k : ℚ) / 10 ^ exp) exp = '0' :: '.' :: padDigits exp k := by
    have hcancel : ((k : ℚ) / 10 ^ exp) * 10 ^ exp = (k : ℚ) := by
      field_simp
    unfold fmtFixed
    rw [hcancel, rndHalfEven_natCast, Int.toNat_natCast]
    show natDigits (k / 10 ^ exp) ++ '.' :: padDigits exp (k % 10 ^ exp) = _
    rw [Nat.div_eq_of_lt hklt, Nat.mod_eq_of_lt hklt]
    rfl
  have hbranch : (if ((k : ℚ) / 10 ^ exp) < 1 / 1000 then
      fmtFixed ((k : ℚ) / 10 ^ exp) 6 else fmtFixed ((k : ℚ) / 10 ^ exp) 3) =
      fmtFixed ((k : ℚ) / 10 ^ exp) exp := by
    rcases hexp with h | h <;> subst h
    · rw [if_neg]
      push_neg
      rw [show ((10 : ℚ)) ^ 3 = 1000 by norm_num]
      rw [div_le_div_iff (by norm_num) (by norm_num)]
      nlinarith
    · rw [if_pos]
      rw [show ((10 : ℚ)) ^ 6 = 1000000 by norm_num]
      rw [div_lt_div_iff (by norm_num) (by norm_num)]
      nlinarith
  have hdigits : ∀ c ∈ padDigits exp k, ∃ d, d < 10 ∧ c = digitChar d := padDigits_chars exp k
  have hmapdot : (padDigits exp k).map (fun c => if c = '.' then '_' else c) =
      padDigits exp k := by
    have := List.map_congr_left (f := fun c => if c = '.' then '_' else c) (g := id)
      (l := padDigits exp k) (fun c hc => by
        obtain ⟨d, hd, rfl⟩ := hdigits c hc
        simp [digitChar_ne_dot d hd])
    rw [this, List.map_id]
  have hvalk : digitsVal (padDigits exp k) = k := by
    rw [digitsVal_padDigits, Nat.mod_eq_of_lt hklt]
  have hstrip_ne : rstripZeros (padDigits exp k) ≠ [] :=
    rstripZeros_ne_nil_of_val _ (by rw [hvalk]; omega)
  have hstrip2 : rstripZeros ('0' :: '_' :: padDigits exp k) =
      '0' :: '_' :: rstripZeros (padDigits exp k) := by
    unfold rstripZeros
    have hrev : ('0' :: '_' :: padDigits exp k).reverse =
        (padDigits exp k).reverse ++ ['_', '0'] := by simp
    rw [hrev, dropWhile_append_of_ne_nil]
    · rw [List.reverse_append]
      rfl
    · intro hnil
      apply hstrip_ne
      unfold rstripZeros
      rw [hnil]
      rfl
  -- the stripped digit list neither ends in `'_'` nor is empty
  obtain ⟨z, hdec, _⟩ := rstripZeros_spec (padDigits exp k)
  have hmemstrip : ∀ c ∈ rstripZeros (padDigits exp k), ∃ d, d < 10 ∧ c = digitChar d := by
    intro c hc
    exact hdigits c (by rw [hdec]; exact List.mem_append.mpr (Or.inl hc))
  have hlast : ('0' :: '_' :: rstripZeros (padDigits exp k)).getLast? ≠ some '_' := by
    intro hc
    have heq : ('0' :: '_' :: rstripZeros (padDigits exp k)) =
        ['0', '_'] ++ rstripZeros (padDigits exp k) := rfl
    rw [heq, List.getLast?_append] at hc
    cases hs : rstripZeros (padDigits exp k) with
    | nil => exact hstrip_ne hs
    | cons a t =>
        rw [hs] at hc
        rw [List.getLast?_eq_getLast (a :: t) (by simp)] at hc
        simp only [Option.or_some, Option.some.injEq] at hc
        have hmem : (a :: t).getLast (by simp) ∈ (a :: t) := List.getLast_mem _
        rw [hc] at hmem
        rw [← hs] at hmem
        obtain ⟨d, hd, hdc⟩ := hmemstrip _ hmem
        exact digitChar_ne_underscore d hd hdc.symm
  have hmap2 : ('0' :: '.' :: padDigits exp k).map (fun c => if c = '.' then '_' else c) =
      '0' :: '_' :: padDigits exp k := by
    simp [hmapdot]
  simp only [fraction_name]
  rw [if_neg (by push_neg; exact hfpos), hbranch, hfmt, hmap2, hstrip2, if_neg hlast,
    if_pos (by simp [List.isPrefixOf])]

/-! ## Sample-name round trip (C5): locating the marker -/

theorem pyIndex_boundary (pat xs ys : List Char) (hpat : pat ≠ [])
    (hys : pat.isPrefixOf ys = true)
    (hnot : ∀ k, k < xs.length → pat.isPrefixOf (xs.drop k ++ ys) = false) :
    pyIndex pat (xs ++ ys) = some xs.length := by
  induction xs with
  | nil =>
      cases ys with
      | nil =>
          exfalso
          cases pat with
          | nil => exact hpat rfl
          | cons a t => simp [List.isPrefixOf] at hys
      | cons c rest =>
          simp only [List.nil_append, pyIndex, hys, if_true, List.length_nil]
  | cons x xs' ih =>
      have h0 := hnot 0 (Nat.succ_pos _)
      simp only [List.drop_zero, List.cons_append] at h0
      simp only [List.cons_append, pyIndex]
      rw [if_neg (by simp [h0])]
      have hrec := ih (fun k hk => by
        have := hnot (k + 1) (Nat.succ_lt_succ hk)
        simpa [List.drop_succ_cons] using this)
      simp only [List.append_eq]
      rw [hrec]
      rfl

/-- No occurrence of `__sample_` can start strictly inside `T` in
`T ++ "__sample_" ++ F`, given that `T` does not contain `__sample_`
and does not end with `__sample`. -/
theorem marker_no_overlap (T F : List Char)
    (hinf : ¬("__sample_".toList <:+: T))
    (hsuf : ¬("__sample".toList <:+ T)) :
    ∀ k, k < T.length →
      ("__sample_".toList).isPrefixOf (T.drop k ++ ("__sample_".toList ++ F)) = false := by
  intro k hk
  by_contra hcb
  rw [Bool.not_eq_false, List.isPrefixOf_iff_prefix] at hcb
  have hlen9 : ("__sample_".toList).length = 9 := rfl
  have hslen : (T.drop k).length = T.length - k := List.length_drop _ _
  have hsp : 0 < (T.drop k).length := by omega
  by_cases hl : 9 ≤ (T.drop k).length
  · have h1 : "__sample_".toList =
        ((T.drop k) ++ ("__sample_".toList ++ F)).take 9 := by
      have := List.prefix_iff_eq_take.mp hcb
      rw [hlen9] at this
      exact this
    have h2 : ((T.drop k) ++ ("__sample_".toList ++ F)).take 9 = (T.drop k).take 9 := by
      rw [List.take_append_eq_append_take]
      have : 9 - (T.drop k).length = 0 := by omega
      rw [this, List.take_zero, List.append_nil]
    have hpref : "__sample_".toList <+: T.drop k := by
      rw [h1, h2]
      exact List.take_prefix _ _
    obtain ⟨r, hr⟩ := hpref
    refine hinf ⟨T.take k, r, ?_⟩
    rw [List.append_assoc, hr, List.take_append_drop]
  · push_neg at hl
    obtain ⟨ℓ, hℓ⟩ : ∃ ℓ, (T.drop k).length = ℓ := ⟨_, rfl⟩
    have h1 : "__sample_".toList = (T.drop k) ++ ("__sample_".toList).take (9 - ℓ) := by
      have h0 := List.prefix_iff_eq_take.mp hcb
      rw [hlen9] at h0
      rw [List.take_append_eq_append_take, List.take_of_length_le (by omega), hℓ] at h0
      rw [List.take_append_eq_append_take, hlen9,
        show 9 - ℓ - 9 = 0 from by omega, List.take_zero, List.append_nil] at h0
      exact h0
  -- from the structure of the marker, only a suffix of length 8 can overlap
    have hseq : T.drop k = ("__sample_".toList).take ℓ := by
      have h2 := congrArg (List.take ℓ) h1
      rw [List.take_append_eq_append_take, List.take_of_length_le (le_of_eq hℓ), hℓ,
        Nat.sub_self, List.take_zero, List.append_nil] at h2
      exact h2.symm
    have hdropeq : ("__sample_".toList).drop ℓ = ("__sample_".toList).take (9 - ℓ) := by
      have h2 := congrArg (List.drop ℓ) h1
      rw [List.drop_append_eq_append_drop, List.drop_of_length_le (le_of_eq hℓ), hℓ,
        Nat.sub_self, List.drop_zero, List.nil_append] at h2
      exact h2
    have hℓ9 : ℓ < 9 := by omega
    have hℓ1 : 1 ≤ ℓ := by omega
    interval_cases ℓ
    · exact absurd hdropeq (by decide)
    · exact absurd hdropeq (by decide)
    · exact absurd hdropeq (by decide)
    · exact absurd hdropeq (by decide)
    · exact absurd hdropeq (by decide)
    · exact absurd hdropeq (by decide)
    · exact absurd hdropeq (by decide)
    · -- ℓ = 8 : T ends with "__sample"
      apply hsuf
      have : T.drop k = "__sample".toList := by
        rw [hseq]
        decide
      rw [← this]
      exact List.drop_suffix _ _

/-! ## Sample-name round trip (C5): the parse side -/

theorem splitOnChar_not_mem (sep : Char) (l : List Char) (h : sep ∉ l) :
    splitOnChar sep l = [l] := by
  induction l with
  | nil => rfl
  | cons c rest ih =>
      have hc : ¬(c = sep) := fun hcc => h (hcc ▸ List.mem_cons_self _ _)
      have hrest : sep ∉ rest := fun hr => h (List.mem_cons_of_mem _ hr)
      simp only [splitOnChar, ih hrest]
      rw [if_neg hc]

theorem splitOnChar_cons_ne (sep c : Char) (l : List Char) (h : ¬(c = sep)) :
    splitOnChar sep (c :: l) =
      match splitOnChar sep l with
      | hh :: t => (c :: hh) :: t
      | [] => [[c]] := by
  simp only [splitOnChar]
  rw [if_neg h]

theorem splitOnChar_cons_eq (sep : Char) (l : List Char) :
    splitOnChar sep (sep :: l) = [] :: splitOnChar sep l := by
  simp [splitOnChar]

theorem parseFloatQ_zero_dot (ds : List Char) (hne : ds ≠ [])
    (hdig : ∀ c ∈ ds, isDigitChar c = true) (hnodot : '.' ∉ ds) :
    parseFloatQ ('0' :: '.' :: ds) = some ((digitsVal ds : ℚ) / 10 ^ ds.length) := by
  have hsplit : splitOnChar '.' ('0' :: '.' :: ds) = [['0'], ds] := by
    rw [splitOnChar_cons_ne '.' '0' _ (by decide), splitOnChar_cons_eq,
      splitOnChar_not_mem '.' ds hnodot]
  unfold parseFloatQ
  rw [hsplit]
  show (if (['0'] ++ ds ≠ [] ∧ (['0'].all isDigitChar) = true ∧ (ds.all isDigitChar) = true)
      then some ((digitsVal ['0'] : ℚ) + (digitsVal ds : ℚ) / 10 ^ ds.length) else none) =
    some ((digitsVal ds : ℚ) / 10 ^ ds.length)
  rw [if_pos ⟨by simp, by decide, List.all_eq_true.mpr hdig⟩,
    show digitsVal ['0'] = 0 from rfl]
  norm_num

/-- The uniform branch of `_parse_sample_table_name`, given where the
marker is found and what the fraction part parses to. -/
theorem parse_uniform_branch (name : String) (idx : Nat) (q : ℚ)
    (hidx : pyIndex ("__sample_".toList) name.toList = some idx)
    (hq : parseFloatQ ((name.toList.drop (idx + 9)).map
      (fun c => if c = '_' then '.' else c)) = some q) :
    parse_sample_table_name name = (String.mk (name.toList.take idx), q, true) := by
  simp only [parse_sample_table_name, hidx, hq]

/-- Core of C5: for `f = k/10^exp` (`exp = 3` or, below `0.001`,
`exp = 6`; `1 ≤ k ≤ 999`) and any base table `T` that neither contains
`__sample_` nor ends in `__sample`, the planner parses the sampler's
name back to `(T, f, True)`. -/
theorem parse_roundtrip_core (T : String) (k exp : ℕ)
    (hk1 : 1 ≤ k) (hk2 : k ≤ 999) (hexp : exp = 3 ∨ exp = 6)
    (hinf : ¬("__sample_".toList <:+: T.toList))
    (hsuf : ¬("__sample".toList <:+ T.toList)) :
    parse_sample_table_name (T ++ "__sample_" ++ fraction_name ((k : ℚ) / 10 ^ exp)) =
      (T, (k : ℚ) / 10 ^ exp, true) := by
  have hklt : k < 10 ^ exp := by
    rcases hexp with h | h <;> subst h <;> omega
  have hfrac := fraction_name_eval k exp hk1 hk2 hexp
  obtain ⟨z, hdec, _⟩ := rstripZeros_spec (padDigits exp k)
  have hvalk : digitsVal (padDigits exp k) = k := by
    rw [digitsVal_padDigits, Nat.mod_eq_of_lt hklt]
  have hdsne : rstripZeros (padDigits exp k) ≠ [] :=
    rstripZeros_ne_nil_of_val _ (by rw [hvalk]; omega)
  have hdsdig : ∀ c ∈ rstripZeros (padDigits exp k), ∃ d, d < 10 ∧ c = digitChar d := by
    intro c hc
    exact padDigits_chars exp k c (by rw [hdec]; exact List.mem_append.mpr (Or.inl hc))
  have hlist : (T ++ "__sample_" ++ fraction_name ((k : ℚ) / 10 ^ exp)).toList =
      T.toList ++ ("__sample_".toList ++ ('0' :: '_' :: rstripZeros (padDigits exp k))) := by
    rw [hfrac]
    show ((T ++ "__sample_" ++ String.mk _).data) = _
    rw [String.data_append, String.data_append]
    rw [List.append_assoc]
    rfl
  have hpy : pyIndex ("__sample_".toList)
      (T ++ "__sample_" ++ fraction_name ((k : ℚ) / 10 ^ exp)).toList =
      some T.toList.length := by
    rw [hlist]
    refine pyIndex_boundary _ _ _ (by decide) ?_ ?_
    · rw [List.isPrefixOf_iff_prefix]
      exact List.prefix_append _ _
    · exact marker_no_overlap T.toList ('0' :: '_' :: rstripZeros (padDigits exp k)) hinf hsuf
  have hdrop : ((T ++ "__sample_" ++ fraction_name ((k : ℚ) / 10 ^ exp)).toList.drop
      (T.toList.length + 9)) = '0' :: '_' :: rstripZeros (padDigits exp k) := by
    rw [hlist, ← List.append_assoc]
    refine List.drop_left' ?_
    rw [List.length_append]
    rfl
  have hmapds : (rstripZeros (padDigits exp k)).map (fun c => if c = '_' then '.' else c) =
      rstripZeros (padDigits exp k) := by
    have := List.map_congr_left (f := fun c => if c = '_' then '.' else c) (g := id)
      (l := rstripZeros (padDigits exp k)) (fun c hc => by
        obtain ⟨d, hd, rfl⟩ := hdsdig c hc
        simp [digitChar_ne_underscore d hd])
    rw [this, List.map_id]
  have hnodot : '.' ∉ rstripZeros (padDigits exp k) := by
    intro hmem
    obtain ⟨d, hd, hdc⟩ := hdsdig '.' hmem
    exact digitChar_ne_dot d hd hdc.symm
  have hdigB : ∀ c ∈ rstripZeros (padDigits exp k), isDigitChar c = true := by
    intro c hc
    obtain ⟨d, hd, rfl⟩ := hdsdig c hc
    exact digitChar_is_digit d hd
  have hparse : parseFloatQ (((T ++ "__sample_" ++
      fraction_name ((k : ℚ) / 10 ^ exp)).toList.drop (T.toList.length + 9)).map
      (fun c => if c = '_' then '.' else c)) =
      some ((digitsVal (rstripZeros (padDigits exp k)) : ℚ) /
        10 ^ (rstripZeros (padDigits exp k)).length) := by
    rw [hdrop]
    have hm : ('0' :: '_' :: rstripZeros (padDigits exp k)).map
        (fun c => if c = '_' then '.' else c) = '0' :: '.' :: rstripZeros (padDigits exp k) := by
      simp [hmapds]
    rw [hm]
    exact parseFloatQ_zero_dot _ hdsne hdigB hnodot
  have hvq : ((digitsVal (rstripZeros (padDigits exp k)) : ℚ) /
      10 ^ (rstripZeros (padDigits exp k)).length) = (k : ℚ) / 10 ^ exp := by
    have h1 : digitsVal (padDigits exp k) =
        digitsVal (rstripZeros (padDigits exp k)) * 10 ^ z := by
      conv_lhs => rw [hdec]
      exact digitsVal_append_replicate_zero _ _
    have hkval : k = digitsVal (rstripZeros (padDigits exp k)) * 10 ^ z := by
      rw [← h1, hvalk]
    have hlen : (rstripZeros (padDigits exp k)).length + z = exp := by
      have := congrArg List.length hdec
      rw [length_padDigits, List.length_append, List.length_replicate] at this
      omega
    set D := digitsVal (rstripZeros (padDigits exp k)) with hD
    set L := (rstripZeros (padDigits exp k)).length with hL
    have hkq : (k : ℚ) = (D : ℚ) * 10 ^ z := by exact_mod_cast hkval
    rw [div_eq_div_iff (by positivity) (by positivity), hkq, ← hlen, pow_add]
    ring
  have := parse_uniform_branch (T ++ "__sample_" ++ fraction_name ((k : ℚ) / 10 ^ exp))
    T.toList.length ((k : ℚ) / 10 ^ exp) hpy (by rw [hparse, hvq])
  rw [this]
  have htake : (T ++ "__sample_" ++
      fraction_name ((k : ℚ) / 10 ^ exp)).toList.take T.toList.length = T.toList := by
    rw [hlist]
    exact List.take_left' rfl
  rw [htake]
  rfl

/-- Round-half-even of `1000/3` is `333`. -/
theorem rndHalfEven_one_third : rndHalfEven ((1/3 : ℚ) * 10 ^ 3) = 333 := by
  simp only [rndHalfEven]; norm_num

/-- Round-half-even of the exact value `333` is `333`. -/
theorem rndHalfEven_of_333 : rndHalfEven ((333 / 10 ^ 3 : ℚ) * 10 ^ 3) = 333 := by
  simp only [rndHalfEven]; norm_num

/-- The 3-decimal rendering of `1/3` agrees with that of `333/1000`. -/
theorem fmtFixed_one_third : fmtFixed ((1:ℚ)/3) 3 = fmtFixed ((333:ℚ)/10^3) 3 := by
  simp only [fmtFixed, rndHalfEven_one_third, rndHalfEven_of_333]

/-- The sampler encodes the fractions `1/3` and `333/1000` by the same
name: the 3-decimal formatting is lossy. -/
theorem fraction_name_one_third :
    fraction_name ((1:ℚ)/3) = fraction_name ((333:ℚ)/10^3) := by
  simp only [fraction_name, fmtFixed_one_third]
  rw [if_neg (by norm_num : ¬((1:ℚ)/3 ≤ 0)), if_neg (by norm_num : ¬((333:ℚ)/10^3 ≤ 0)),
    if_neg (by norm_num : ¬((1:ℚ)/3 < 1/1000)), if_neg (by norm_num : ¬((333:ℚ)/10^3 < 1/1000))]

/-- **C5** (amended): sample-table naming round-trips between the sampler
and the planner for the fractions the encoding can represent exactly:
if `T` does not contain `"__sample_"` as a substring and does not end in
`"__sample"`, and `f = k/1000` with `1 ≤ k ≤ 999` (or `f = k/10^6` with
`1 ≤ k ≤ 999`, i.e. `f < 0.001`), then
`Planner._parse_sample_table_name (T + "__sample_" + _fraction_name f)`
returns exactly `(T, f, True)`. -/
theorem sample_name_roundtrip (T : String) (f : ℚ) (k exp : ℕ)
    (hf : f = (k : ℚ) / 10 ^ exp) (hk1 : 1 ≤ k) (hk2 : k ≤ 999)
    (hexp : exp = 3 ∨ exp = 6)
    (hinf : ¬("__sample_".toList <:+: T.toList))
    (hsuf : ¬("__sample".toList <:+ T.toList)) :
    parse_sample_table_name (T ++ "__sample_" ++ fraction_name f) = (T, f, true) := by
  subst hf
  exact parse_roundtrip_core T k exp hk1 hk2 hexp hinf hsuf

/-- Witness for C5: `orders__sample_` + encoding of `0.05` parses back to
`("orders", 0.05, True)`. -/
theorem sample_name_roundtrip_witness :
    parse_sample_table_name ("orders" ++ "__sample_" ++ fraction_name ((50 : ℚ) / 10 ^ 3)) =
      ("orders", (50 : ℚ) / 10 ^ 3, true) :=
  sample_name_roundtrip "orders" ((50 : ℚ) / 10 ^ 3) 50 3 rfl (by norm_num) (by norm_num)
    (Or.inl rfl) (by decide) (by decide)

/-- Counterexample to the unamended C5: for `f = 1/3 ∈ (0,1)` with a
marker-free base table `t`, the planner parses the name back to the
fraction `333/1000`, not `1/3` — the 3-decimal encoding is lossy. -/
theorem sample_name_roundtrip_counterexample :
    parse_sample_table_name ("t" ++ "__sample_" ++ fraction_name ((1 : ℚ)/3)) =
      ("t", (333 : ℚ) / 10 ^ 3, true) ∧ (333 : ℚ) / 10 ^ 3 ≠ (1 : ℚ)/3 := by
  constructor
  · rw [fraction_name_one_third]
    exact parse_roundtrip_core "t" 333 3 (by norm_num) (by norm_num) (Or.inl rfl)
      (by decide) (by decide)
  · norm_num

end AQE
